import Mathlib

/-!
Verification development for the mikroscope log sidecar.

The definitions below are a shallow embedding of the TypeScript sources:
`src/infrastructure/indexing/LogIndexer.ts`,
`src/infrastructure/persistence/LogDatabase.ts`,
`src/application/services/LogQueryService.ts`,
`src/usecases/auth.ts`, the ingest use case and the alerting manager.

Modelling conventions:
* JSON values are the inductive `Jv`; JSON numbers are modelled as integers
  (no claim depends on fractional literals).
* `JSON.parse` is modelled by `parseJson`, a fuel-bounded recursive-descent
  parser for the JSON grammar (strings support the single-character escapes;
  `\u` escapes and fractional/exponent number literals are out of model).
* `new Date().toISOString()` is modelled by threading an explicit `now`
  string; epoch-millisecond clocks are modelled as integers.
* File bytes are modelled as characters of a Lean `String` (ASCII content),
  and the path separator is the POSIX `/`.
* JavaScript property access `record.key` is modelled by `jsGet`; property
  access on `null` throws in JavaScript, which the line processor models
  with `Except.error`.
-/

/-- ASCII lower-casing of one character (JavaScript `toLowerCase` on the
ASCII range; the log data in scope is ASCII). -/
def toLowerChar (c : Char) : Char :=
  if 'A' ≤ c ∧ c ≤ 'Z' then Char.ofNat (c.toNat + 32) else c

/-- ASCII upper-casing of one character (JavaScript `toUpperCase` on the
ASCII range). -/
def toUpperChar (c : Char) : Char :=
  if 'a' ≤ c ∧ c ≤ 'z' then Char.ofNat (c.toNat - 32) else c

/-- JavaScript `String.prototype.toLowerCase`. -/
def strLower (s : String) : String := String.mk (s.toList.map toLowerChar)

/-- JavaScript `String.prototype.toUpperCase`. -/
def strUpper (s : String) : String := String.mk (s.toList.map toUpperChar)

/-- Whitespace as trimmed by `String.prototype.trim`. -/
def isWsChar (c : Char) : Bool :=
  c = ' ' ∨ c = '\t' ∨ c = '\n' ∨ c = '\r'

/-- JavaScript `String.prototype.trim`. -/
def strTrim (s : String) : String :=
  String.mk (((s.toList.dropWhile isWsChar).reverse.dropWhile isWsChar).reverse)

/-- Split a character list on a separator character (JavaScript
`String.prototype.split` with a one-character separator). -/
def splitCharsOn (sep : Char) : List Char → List String
  | [] => [""]
  | c :: rest =>
      let tail := splitCharsOn sep rest
      if c = sep then "" :: tail
      else
        match tail with
        | [] => [String.mk [c]]
        | t :: ts => String.mk (c :: t.toList) :: ts

/-- String split on a separator character. -/
def strSplitOn (sep : Char) (s : String) : List String := splitCharsOn sep s.toList

/-- Byte-wise (here: character-wise) lexicographic strict comparison, the
order SQLite's BINARY collation gives TEXT columns. -/
def charListLt : List Char → List Char → Bool
  | [], [] => false
  | [], _ :: _ => true
  | _ :: _, [] => false
  | a :: as, b :: bs =>
      if a < b then true
      else if b < a then false
      else charListLt as bs

/-- Strict string comparison. -/
def strLt (a b : String) : Bool := charListLt a.toList b.toList

/-- JSON values as produced by `JSON.parse`. -/
inductive Jv where
  | jnull
  | jbool (b : Bool)
  | jnum (n : Int)
  | jstr (s : String)
  | jarr (xs : List Jv)
  | jobj (kvs : List (String × Jv))

/-- First-match association lookup used to model JavaScript property reads
on objects built by `JSON.parse` (whose keys are unique). -/
def lookupKvs : List (String × Jv) → String → Option Jv
  | [], _ => none
  | (k, v) :: rest, key => if k = key then some v else lookupKvs rest key

/-- JavaScript property access `value[key]`: a real lookup on objects,
`undefined` (`none`) on every other non-null value. Access on `null`
throws and is handled explicitly by callers. -/
def jsGet (v : Jv) (key : String) : Option Jv :=
  match v with
  | Jv.jobj kvs => lookupKvs kvs key
  | _ => none

/-- `Object.entries(value)`: key/value pairs of an object, index/element
pairs of an array, index/character pairs of a string, empty otherwise. -/
def jsEntries (v : Jv) : List (String × Jv) :=
  match v with
  | Jv.jobj kvs => kvs
  | Jv.jarr xs => xs.enum.map (fun p => (toString p.1, p.2))
  | Jv.jstr s => s.toList.enum.map (fun p => (toString p.1, Jv.jstr (String.mk [p.2])))
  | _ => []

/-- `isScalar` from LogIndexer.ts: null, string, number or boolean. -/
def isScalar : Jv → Bool
  | Jv.jnull => true
  | Jv.jbool _ => true
  | Jv.jnum _ => true
  | Jv.jstr _ => true
  | _ => false

/-- JavaScript `String(value)` for scalar values. -/
def jsStringOfScalar : Jv → String
  | Jv.jnull => "null"
  | Jv.jbool b => cond b ("true") ("false")
  | Jv.jnum n => toString n
  | Jv.jstr s => s
  | _ => ""

/-- Hex digit for JSON control-character escapes. -/
def hexDigit (n : Nat) : Char :=
  if n < 10 then Char.ofNat (48 + n) else Char.ofNat (87 + n)

/-- JSON escaping of one character, as `JSON.stringify` performs it. -/
def escapeJsonChar (c : Char) : List Char :=
  if c = '"' then ['\\', '"']
  else if c = '\\' then ['\\', '\\']
  else if c = '\n' then ['\\', 'n']
  else if c = '\t' then ['\\', 't']
  else if c = '\r' then ['\\', 'r']
  else if c.toNat < 32 then
    ['\\', 'u', '0', '0', hexDigit (c.toNat / 16), hexDigit (c.toNat % 16)]
  else [c]

/-- JSON string quoting used by `JSON.stringify`. -/
def quoteJson (s : String) : String :=
  String.mk ('"' :: (s.toList.flatMap escapeJsonChar) ++ ['"'])

mutual

/-- `JSON.stringify` on JSON values (objects and arrays render with no
spaces, exactly as in V8). -/
def jsonStringify : Jv → String
  | Jv.jnull => "null"
  | Jv.jbool b => cond b ("true") ("false")
  | Jv.jnum n => toString n
  | Jv.jstr s => quoteJson s
  | Jv.jarr xs => "[" ++ stringifyElems xs ++ "]"
  | Jv.jobj kvs => "\x7b" ++ stringifyMembers kvs ++ "\x7d"

/-- Comma-joined serialization of array elements. -/
def stringifyElems : List Jv → String
  | [] => ""
  | [x] => jsonStringify x
  | x :: y :: rest => jsonStringify x ++ "," ++ stringifyElems (y :: rest)

/-- Comma-joined serialization of object members. -/
def stringifyMembers : List (String × Jv) → String
  | [] => ""
  | [(k, v)] => quoteJson k ++ ":" ++ jsonStringify v
  | (k, v) :: m :: rest =>
      quoteJson k ++ ":" ++ jsonStringify v ++ "," ++ stringifyMembers (m :: rest)

end

/-- JSON insignificant whitespace skipping. -/
def skipWs : List Char → List Char
  | [] => []
  | c :: cs =>
      if c = ' ' ∨ c = '\t' ∨ c = '\n' ∨ c = '\r' then skipWs cs else c :: cs

/-- Consume a run of decimal digits, accumulating their value. -/
def takeDigits : Nat → List Char → (Nat × List Char)
  | acc, [] => (acc, [])
  | acc, c :: cs =>
      if c.isDigit then takeDigits (acc * 10 + (c.toNat - 48)) cs else (acc, c :: cs)

/-- Parse a JSON integer literal (optional minus; no leading zeros). -/
def parseNum (cs : List Char) : Option (Int × List Char) :=
  let core : List Char → Option (Nat × List Char) := fun ds =>
    match ds with
    | [] => none
    | c :: rest =>
        if c = '0' then
          match rest with
          | d :: _ => if d.isDigit then none else some (0, rest)
          | [] => some (0, [])
        else if c.isDigit then some (takeDigits (c.toNat - 48) rest)
        else none
  match cs with
  | '-' :: rest => (core rest).map (fun p => (-(p.1 : Int), p.2))
  | _ => (core cs).map (fun p => ((p.1 : Int), p.2))

/-- Parse the body of a JSON string after the opening quote. -/
def parseStringBody : List Char → List Char → Option (String × List Char)
  | acc, c :: rest =>
      if c = '"' then some (String.mk acc.reverse, rest)
      else if c = '\\' then
        match rest with
        | [] => none
        | e :: rest2 =>
            let dec : Option Char :=
              if e = '"' then some '"'
              else if e = '\\' then some '\\'
              else if e = '/' then some '/'
              else if e = 'n' then some '\n'
              else if e = 't' then some '\t'
              else if e = 'r' then some '\r'
              else if e = 'b' then some (Char.ofNat 8)
              else if e = 'f' then some (Char.ofNat 12)
              else none
            match dec with
            | some d => parseStringBody (d :: acc) rest2
            | none => none
      else if c.toNat < 32 then none
      else parseStringBody (c :: acc) rest
  | _, [] => none
termination_by _acc cs => cs.length

/-- Opening brace character (object start). -/
def obrace : Char := Char.ofNat 123

/-- Closing brace character (object end). -/
def cbrace : Char := Char.ofNat 125

mutual

/-- Fuel-bounded JSON value parser. -/
def parseVal : Nat → List Char → Option (Jv × List Char)
  | 0, _ => none
  | fuel + 1, input =>
    match skipWs input with
    | [] => none
    | c :: cs =>
        if c = 'n' then
          match cs with
          | 'u' :: 'l' :: 'l' :: rest => some (Jv.jnull, rest)
          | _ => none
        else if c = 't' then
          match cs with
          | 'r' :: 'u' :: 'e' :: rest => some (Jv.jbool true, rest)
          | _ => none
        else if c = 'f' then
          match cs with
          | 'a' :: 'l' :: 's' :: 'e' :: rest => some (Jv.jbool false, rest)
          | _ => none
        else if c = '"' then
          (parseStringBody [] cs).map (fun p => (Jv.jstr p.1, p.2))
        else if c = '[' then
          match skipWs cs with
          | ']' :: rest => some (Jv.jarr [], rest)
          | rest => parseArrElems fuel rest []
        else if c = obrace then
          match skipWs cs with
          | d :: rest => if d = cbrace then some (Jv.jobj [], rest)
                         else parseObjMembers fuel (d :: rest) []
          | [] => none
        else
          (parseNum (c :: cs)).map (fun p => (Jv.jnum p.1, p.2))

/-- Array elements after the first non-`]` token. -/
def parseArrElems : Nat → List Char → List Jv → Option (Jv × List Char)
  | 0, _, _ => none
  | fuel + 1, input, acc =>
    match parseVal fuel input with
    | none => none
    | some (v, rest) =>
        match skipWs rest with
        | ',' :: r => parseArrElems fuel r (v :: acc)
        | ']' :: r => some (Jv.jarr (v :: acc).reverse, r)
        | _ => none

/-- Object members starting at a key. -/
def parseObjMembers : Nat → List Char → List (String × Jv) → Option (Jv × List Char)
  | 0, _, _ => none
  | fuel + 1, input, acc =>
    match skipWs input with
    | '"' :: cs =>
        match parseStringBody [] cs with
        | none => none
        | some (k, r1) =>
            match skipWs r1 with
            | ':' :: r2 =>
                match parseVal fuel r2 with
                | none => none
                | some (v, r3) =>
                    match skipWs r3 with
                    | ',' :: r4 => parseObjMembers fuel r4 ((k, v) :: acc)
                    | d :: r4 =>
                        if d = cbrace then some (Jv.jobj ((k, v) :: acc).reverse, r4)
                        else none
                    | [] => none
            | _ => none
    | _ => none

end

/-- `JSON.parse` model: parse one value and require only whitespace after. -/
def parseJson (s : String) : Option Jv :=
  match parseVal (2 * s.length + 2) s.toList with
  | some (v, rest) => if skipWs rest = [] then some v else none
  | none => none

/-- `normalizeMessage` from LogIndexer.ts. -/
def normalizeMessage (value : Option Jv) : String :=
  match value with
  | some (Jv.jstr s) => s
  | none => ""
  | some Jv.jnull => ""
  | some v => jsonStringify v

/-- `normalizeTimestamp` from LogIndexer.ts; `now` models
`new Date().toISOString()`. -/
def normalizeTimestamp (value : Option Jv) (now : String) : String :=
  match value with
  | some (Jv.jstr s) => if s.length > 0 then s else now
  | _ => now

/-- `normalizeLevel` from LogIndexer.ts. -/
def normalizeLevel (value : Option Jv) : String :=
  match value with
  | some (Jv.jstr s) => if s.length > 0 then strUpper s else "INFO"
  | _ => "INFO"

/-- The `message` fallback inside `normalizeEvent`. -/
def eventFallback (record : Jv) : String :=
  match jsGet record ("message") with
  | some (Jv.jstr s) => if s.length > 0 then s else "log.event"
  | _ => "log.event"

/-- `normalizeEvent` from LogIndexer.ts. -/
def normalizeEvent (record : Jv) : String :=
  match jsGet record ("event") with
  | some (Jv.jstr s) => if s.length > 0 then s else eventFallback record
  | _ => eventFallback record

/-- Substring test on character lists, modelling `String.includes`. -/
def containsSub (needle : List Char) : List Char → Bool
  | [] => needle.isEmpty
  | c :: rest => needle.isPrefixOf (c :: rest) || containsSub needle rest

/-- The path fallback of `normalizeAudit`: the lower-cased file path
contains `/audit/` (POSIX separator). -/
def pathHasAuditSegment (filePath : String) : Bool :=
  containsSub ("/audit/").toList (strLower filePath).toList

/-- `normalizeAudit` from LogIndexer.ts. -/
def normalizeAudit (record : Jv) (filePath : String) : Bool :=
  match jsGet record ("audit") with
  | some (Jv.jbool b) => b
  | some (Jv.jnum n) => n != 0
  | some (Jv.jstr s) =>
      let normalized := strLower (strTrim s)
      if normalized = "true" ∨ normalized = "1" ∨ normalized = "yes" then true
      else if normalized = "false" ∨ normalized = "0" ∨ normalized = "no" then false
      else pathHasAuditSegment filePath
  | _ => pathHasAuditSegment filePath

/-- POSIX basename: the part of the path after the last separator. -/
def basenameOf (p : String) : String :=
  (strSplitOn '/' p).getLastD p

/-- `isAuditLogFile` from server.ts (maintenance classification). -/
def isAuditLogFile (filePath : String) : Bool :=
  let normalizedPath := strLower filePath
  if containsSub ("/audit/").toList normalizedPath.toList then true
  else containsSub ("audit").toList (basenameOf normalizedPath).toList

/-- Input of `LogDatabase.upsertEntry`. -/
structure UpsertEntryInput where
  timestamp : String
  level : String
  event : String
  message : String
  isAudit : Bool
  dataJson : String
  sourceFile : String
  lineNumber : Nat
deriving DecidableEq

/-- A row of the `log_entries` table. -/
structure EntryRow where
  id : Nat
  timestamp : String
  level : String
  event : String
  message : String
  isAudit : Bool
  dataJson : String
  sourceFile : String
  lineNumber : Nat
deriving DecidableEq

/-- A row of the `log_fields` table. -/
structure FieldRow where
  entryId : Nat
  key : String
  valueText : String
deriving DecidableEq

/-- The SQLite store: both tables in insertion order plus the AUTOINCREMENT
counter (invariant I2: ids are assigned monotonically and never reused). -/
structure Db where
  entries : List EntryRow
  fields : List FieldRow
  nextId : Nat
deriving DecidableEq

/-- A freshly initialized database. -/
def emptyDb : Db := { entries := [], fields := [], nextId := 1 }

/-- Row lookup by the UNIQUE `(source_file, line_number)` key. -/
def findEntry (db : Db) (sourceFile : String) (lineNumber : Nat) : Option EntryRow :=
  db.entries.find? (fun e => e.sourceFile == sourceFile && e.lineNumber == lineNumber)

/-- Result of `LogDatabase.upsertEntry`. -/
structure UpsertEntryResult where
  entryId : Nat
  inserted : Bool
deriving DecidableEq

/-- `LogDatabase.upsertEntry`: INSERT OR IGNORE on the unique
`(source_file, line_number)` key, returning the existing id with
`inserted := false` when the key is already present. -/
def upsertEntry (db : Db) (input : UpsertEntryInput) : Db × UpsertEntryResult :=
  match findEntry db input.sourceFile input.lineNumber with
  | some e => (db, { entryId := e.id, inserted := false })
  | none =>
      let row : EntryRow :=
        { id := db.nextId, timestamp := input.timestamp, level := input.level,
          event := input.event, message := input.message, isAudit := input.isAudit,
          dataJson := input.dataJson, sourceFile := input.sourceFile,
          lineNumber := input.lineNumber }
      ({ db with entries := db.entries ++ [row], nextId := db.nextId + 1 },
       { entryId := db.nextId, inserted := true })

/-- `LogDatabase.upsertField`: INSERT OR IGNORE on the unique
`(entry_id, key, value_text)` triple. -/
def upsertField (db : Db) (entryId : Nat) (key value : String) : Db :=
  if db.fields.any (fun f => f.entryId == entryId && f.key == key && f.valueText == value)
  then db
  else { db with fields := db.fields ++ [{ entryId := entryId, key := key, valueText := value }] }

/-- `LogDatabase.deleteEntriesForSourceFile`: one transaction deleting the
field rows of the doomed entries and then the entries themselves; returns
the two deletion counts. -/
def deleteEntriesForSourceFile (db : Db) (sourceFile : String) : Db × Nat × Nat :=
  let doomed := db.entries.filter (fun e => e.sourceFile == sourceFile)
  let doomedIds := doomed.map (fun e => e.id)
  let keptFields := db.fields.filter (fun f => !(doomedIds.contains f.entryId))
  let keptEntries := db.entries.filter (fun e => !(e.sourceFile == sourceFile))
  ({ db with entries := keptEntries, fields := keptFields },
   db.entries.length - keptEntries.length, db.fields.length - keptFields.length)

/-- The counters of an `IndexReport` (the wall-clock `startedAt` and
`finishedAt` strings and the mode tag carry no logic and are omitted). -/
structure IndexReport where
  filesScanned : Nat
  linesScanned : Nat
  recordsInserted : Nat
  recordsSkipped : Nat
  parseErrors : Nat
deriving DecidableEq

/-- A report with all counters zero. -/
def emptyReport : IndexReport :=
  { filesScanned := 0, linesScanned := 0, recordsInserted := 0,
    recordsSkipped := 0, parseErrors := 0 }

/-- `LogIndexer.processLine`: trim, skip blank lines, count parse failures,
normalize and upsert; on an inserted entry also upsert one field per scalar
top-level value. A line parsing to JSON `null` makes the JavaScript code
throw a `TypeError` at the first property access, modelled as
`Except.error`. -/
def processLine (filePath sourceFile line : String) (lineNumber : Nat) (now : String)
    (db : Db) (report : IndexReport) : Except String (Db × IndexReport) :=
  let trimmed := strTrim line
  if trimmed = "" then Except.ok (db, report)
  else
    match parseJson trimmed with
    | none => Except.ok (db, { report with parseErrors := report.parseErrors + 1 })
    | some Jv.jnull => Except.error ("TypeError: cannot read properties of null")
    | some record =>
        let input : UpsertEntryInput :=
          { timestamp := normalizeTimestamp (jsGet record ("timestamp")) now,
            level := normalizeLevel (jsGet record ("level")),
            event := normalizeEvent record,
            message := normalizeMessage (jsGet record ("message")),
            isAudit := normalizeAudit record filePath,
            dataJson := jsonStringify record,
            sourceFile := sourceFile,
            lineNumber := lineNumber }
        let upserted := upsertEntry db input
        if upserted.2.inserted then
          let db2 := (jsEntries record).foldl
            (fun d kv =>
              if isScalar kv.2 then upsertField d upserted.2.entryId kv.1 (jsStringOfScalar kv.2)
              else d)
            upserted.1
          Except.ok (db2, { report with recordsInserted := report.recordsInserted + 1 })
        else
          Except.ok (upserted.1, { report with recordsSkipped := report.recordsSkipped + 1 })

/-- The per-file line loop shared by the full and incremental passes: each
line increments `linesScanned` and is handed to `processLine` with a
1-based line number continuing from `lineNumber`. Returns the final line
number for the incremental cursor. -/
def processLines (filePath sourceFile : String) (now : String) :
    List String → Nat → Db → IndexReport → Except String (Db × IndexReport × Nat)
  | [], lineNumber, db, report => Except.ok (db, report, lineNumber)
  | line :: rest, lineNumber, db, report =>
      let report1 := { report with linesScanned := report.linesScanned + 1 }
      match processLine filePath sourceFile line (lineNumber + 1) now db report1 with
      | Except.error e => Except.error e
      | Except.ok (db1, report2) => processLines filePath sourceFile now rest (lineNumber + 1) db1 report2

/-- Splitting file content into the lines `readline` yields: separators are
newlines and a trailing newline produces no extra empty line. -/
def fileLines (content : String) : List String :=
  if content = "" then []
  else
    let parts := strSplitOn '\n' content
    if content.toList.getLast? = some '\n' then parts.dropLast else parts

/-- One file of the logs tree as the indexer sees it: the absolute path
(used for audit classification), the root-relative forward-slash source
file name, and the raw content. -/
structure TreeFile where
  path : String
  sourceFile : String
  content : String
deriving DecidableEq

/-- `LogIndexer.indexFileFull`: stream the whole file from offset 0. -/
def indexFileFull (now : String) (file : TreeFile) (db : Db) (report : IndexReport) :
    Except String (Db × IndexReport) :=
  match processLines file.path file.sourceFile now (fileLines file.content) 0 db report with
  | Except.error e => Except.error e
  | Except.ok (db1, report1, _) => Except.ok (db1, report1)

/-- The file loop of `LogIndexer.indexDirectory`. -/
def indexFiles (now : String) : List TreeFile → Db → IndexReport → Except String (Db × IndexReport)
  | [], db, report => Except.ok (db, report)
  | file :: rest, db, report =>
      match indexFileFull now file db report with
      | Except.error e => Except.error e
      | Except.ok (db1, report1) => indexFiles now rest db1 report1

/-- `LogIndexer.indexDirectory` (full mode) over an already-enumerated logs
tree (the directory walk lists `.ndjson` files in sorted order; the model
takes the resulting list as input). -/
def indexDirectory (now : String) (files : List TreeFile) (db : Db) :
    Except String (Db × IndexReport) :=
  indexFiles now files db { emptyReport with filesScanned := files.length }

/-- The opaque pagination cursor payload `(id, timestamp)`. The service
serializes it as base64url-of-JSON; encode and decode compose to the
identity on valid cursors, so the model keeps the structural value. -/
structure LogCursor where
  id : Nat
  timestamp : String
deriving DecidableEq

/-- Query options of `LogQueryOptions` (the SQL-facing subset; `from` is a
Lean keyword, hence `fromTs`/`toTs`). Absent and empty-string parameters
are both `none`, matching the `|| undefined` parsing in handleRequest. -/
structure LogQueryOptions where
  fromTs : Option String := none
  toTs : Option String := none
  level : Option String := none
  audit : Option Bool := none
  field : Option String := none
  value : Option String := none
  limit : Option Nat := none
deriving DecidableEq

/-- `LogDatabase.buildFilterSql` as a row predicate: inclusive `from`/`to`
bounds, upper-cased exact level, audit flag, and the `field=value` join
against `log_fields`. -/
def buildFilterPred (options : LogQueryOptions) (db : Db) (e : EntryRow) : Bool :=
  (match options.fromTs with
   | some f => !strLt e.timestamp f
   | none => true) &&
  (match options.toTs with
   | some t => !strLt t e.timestamp
   | none => true) &&
  (match options.level with
   | some lv => e.level == strUpper lv
   | none => true) &&
  (match options.audit with
   | some b => e.isAudit == b
   | none => true) &&
  (match options.field, options.value with
   | some f, some v =>
       db.fields.any (fun fr => fr.entryId == e.id && fr.key == f && fr.valueText == v)
   | _, _ => true)

/-- `LogDatabase.resolveLimit`: `Math.max(1, Math.min(max, Math.trunc(input || 100)))`
(an absent or zero limit falls back to 100). -/
def resolveLimit (input : Option Nat) (maxLimit : Nat) : Nat :=
  let v : Nat :=
    match input with
    | none => 100
    | some 0 => 100
    | some n => n
  max 1 (min maxLimit v)

/-- The cursor WHERE clause:
`timestamp < c.timestamp OR (timestamp = c.timestamp AND id < c.id)`. -/
def cursorPred (c : LogCursor) (e : EntryRow) : Bool :=
  strLt e.timestamp c.timestamp ||
    (e.timestamp == c.timestamp && decide (e.id < c.id))

/-- The output order `ORDER BY timestamp DESC, id DESC` as a total
preorder: `rowLe a b` means `a` is emitted no later than `b`. -/
def rowLe (a b : EntryRow) : Prop :=
  strLt b.timestamp a.timestamp = true ∨ (b.timestamp = a.timestamp ∧ b.id ≤ a.id)

/-- Strict version of the output order: `a` is emitted strictly before
`b`. -/
def rowAfter (a b : EntryRow) : Prop :=
  strLt b.timestamp a.timestamp = true ∨ (b.timestamp = a.timestamp ∧ b.id < a.id)

instance : DecidableRel rowLe := fun a b => by
  unfold rowLe; exact inferInstance

instance : DecidableRel rowAfter := fun a b => by
  unfold rowAfter; exact inferInstance

theorem charListLt_irrefl : ∀ (l : List Char), charListLt l l = false
  | [] => rfl
  | c :: cs => by simp [charListLt, charListLt_irrefl cs]

theorem charListLt_trans : ∀ (a b c : List Char),
    charListLt a b = true → charListLt b c = true → charListLt a c = true := by
  intro a
  induction a with
  | nil =>
      intro b c h1 h2
      cases b with
      | nil => simp [charListLt] at h1
      | cons bb bs =>
          cases c with
          | nil => simp [charListLt] at h2
          | cons cc cs => rfl
  | cons aa as ih =>
      intro b c h1 h2
      cases b with
      | nil => simp [charListLt] at h1
      | cons bb bs =>
          cases c with
          | nil => simp [charListLt] at h2
          | cons cc cs =>
              simp only [charListLt] at h1 h2 ⊢
              by_cases hab : aa < bb
              · by_cases hbc : bb < cc
                · simp [lt_trans hab hbc]
                · rw [if_neg hbc] at h2
                  by_cases hcb : cc < bb
                  · rw [if_pos hcb] at h2; exact absurd h2 Bool.false_ne_true
                  · have hbceq : bb = cc := le_antisymm (not_lt.mp hcb) (not_lt.mp hbc)
                    subst hbceq
                    simp [hab]
              · rw [if_neg hab] at h1
                by_cases hba : bb < aa
                · rw [if_pos hba] at h1; exact absurd h1 Bool.false_ne_true
                · rw [if_neg hba] at h1
                  have habeq : aa = bb := le_antisymm (not_lt.mp hba) (not_lt.mp hab)
                  subst habeq
                  by_cases hac : aa < cc
                  · simp [hac]
                  · rw [if_neg hac] at h2 ⊢
                    by_cases hca : cc < aa
                    · rw [if_pos hca] at h2; exact absurd h2 Bool.false_ne_true
                    · rw [if_neg hca] at h2 ⊢
                      exact ih bs cs h1 h2

theorem charListLt_connex : ∀ (a b : List Char),
    charListLt a b = false → charListLt b a = false → a = b := by
  intro a
  induction a with
  | nil =>
      intro b h1 _
      cases b with
      | nil => rfl
      | cons bb bs => simp [charListLt] at h1
  | cons aa as ih =>
      intro b h1 h2
      cases b with
      | nil => simp [charListLt] at h2
      | cons bb bs =>
          simp only [charListLt] at h1 h2
          by_cases hab : aa < bb
          · rw [if_pos hab] at h1; exact Bool.noConfusion h1
          · rw [if_neg hab] at h1
            by_cases hba : bb < aa
            · rw [if_pos hba] at h2; exact Bool.noConfusion h2
            · rw [if_neg hba] at h1
              rw [if_neg hba, if_neg hab] at h2
              have habeq : aa = bb := le_antisymm (not_lt.mp hba) (not_lt.mp hab)
              subst habeq
              rw [ih bs h1 h2]

theorem charListLt_asymm {a b : List Char} (h : charListLt a b = true) :
    charListLt b a = false := by
  by_contra hcon
  have h2 : charListLt b a = true := by
    cases hx : charListLt b a
    · exact absurd hx hcon
    · rfl
  have hx := charListLt_trans a b a h h2
  rw [charListLt_irrefl a] at hx
  exact Bool.noConfusion hx

theorem strLt_trans {a b c : String} (h1 : strLt a b = true) (h2 : strLt b c = true) :
    strLt a c = true := charListLt_trans _ _ _ h1 h2

theorem strLt_asymm {a b : String} (h : strLt a b = true) : strLt b a = false :=
  charListLt_asymm h

theorem strLt_irrefl (a : String) : strLt a a = false := charListLt_irrefl _

theorem strLt_connex {a b : String} (h1 : strLt a b = false) (h2 : strLt b a = false) :
    a = b := by
  cases a with
  | mk da =>
      cases b with
      | mk db =>
          have hdd : da = db := charListLt_connex da db h1 h2
          rw [hdd]

instance : IsTotal EntryRow rowLe where
  total a b := by
    unfold rowLe
    by_cases h1 : strLt b.timestamp a.timestamp = true
    · exact Or.inl (Or.inl h1)
    · by_cases h2 : strLt a.timestamp b.timestamp = true
      · exact Or.inr (Or.inl h2)
      · have heq : a.timestamp = b.timestamp :=
          strLt_connex (Bool.not_eq_true _ ▸ h2) (Bool.not_eq_true _ ▸ h1)
        rcases Nat.le_total b.id a.id with hid | hid
        · exact Or.inl (Or.inr ⟨heq.symm, hid⟩)
        · exact Or.inr (Or.inr ⟨heq, hid⟩)

instance : IsTrans EntryRow rowLe where
  trans a b c hab hbc := by
    unfold rowLe at *
    rcases hab with h1 | ⟨e1, i1⟩
    · rcases hbc with h2 | ⟨e2, _⟩
      · exact Or.inl (strLt_trans h2 h1)
      · exact Or.inl (e2 ▸ h1)
    · rcases hbc with h2 | ⟨e2, i2⟩
      · exact Or.inl (e1 ▸ h2)
      · exact Or.inr ⟨e2.trans e1, le_trans i2 i1⟩

/-- The rows of `log_entries` matching the WHERE clause (base filter plus
optional cursor clause). -/
def queryMatches (db : Db) (options : LogQueryOptions) (cursor : Option LogCursor) :
    List EntryRow :=
  let base := db.entries.filter (buildFilterPred options db)
  match cursor with
  | none => base
  | some c => base.filter (cursorPred c)

/-- The ORDER BY applied to a row list; SQLite's sort is modelled by
insertion sort on the total preorder `rowLe` (ties are impossible on rows
with distinct ids, so any sort yields the same list). -/
def sortRows (l : List EntryRow) : List EntryRow :=
  List.insertionSort rowLe l

/-- Result shape of `LogDatabase.queryPage`. -/
structure QueryPageResult where
  entries : List EntryRow
  hasMore : Bool
  limit : Nat
deriving DecidableEq

/-- `LogDatabase.queryPage`: filter, order, fetch `limit + 1` rows, set
`hasMore` when more than `limit` came back and truncate to `limit`. -/
def queryPage (db : Db) (options : LogQueryOptions) (cursor : Option LogCursor) :
    QueryPageResult :=
  let limit := resolveLimit options.limit 1000
  let rows := (sortRows (queryMatches db options cursor)).take (limit + 1)
  let hasMore := decide (limit < rows.length)
  let pageRows := if hasMore then rows.take limit else rows
  { entries := pageRows, hasMore := hasMore, limit := limit }

/-- `LogQueryService.normalizeLimit`. -/
def normalizeLimit (input : Option Nat) (fallback maxLimit : Nat) : Nat :=
  let v : Nat :=
    match input with
    | none => fallback
    | some 0 => fallback
    | some n => n
  max 1 (min maxLimit v)

/-- Result shape of `LogQueryService.queryLogsPage`. -/
structure LogQueryPage where
  entries : List EntryRow
  hasMore : Bool
  limit : Nat
  nextCursor : Option LogCursor
deriving DecidableEq

/-- `LogQueryService.queryLogsPage`: clamp the limit, delegate to the
store, and encode the next cursor from the last returned row when the page
has more. -/
def queryLogsPage (db : Db) (options : LogQueryOptions) (cursor : Option LogCursor) :
    LogQueryPage :=
  let limit := normalizeLimit options.limit 100 1000
  let page := queryPage db { options with limit := some limit } cursor
  let lastEntry := page.entries.getLast?
  { entries := page.entries, hasMore := page.hasMore, limit := page.limit,
    nextCursor :=
      match page.hasMore, lastEntry with
      | true, some e => some { id := e.id, timestamp := e.timestamp }
      | _, _ => none }

/-- The in-memory per-file incremental cursor (`IncrementalFileState`). -/
structure FileCursorState where
  byteOffset : Nat
  fileSize : Nat
  lineNumber : Nat
  mtimeMs : Int
deriving DecidableEq

/-- A file as the incremental pass stats it: absolute path, root-relative
source name, raw content (bytes as characters) and mtime in epoch ms. -/
structure IncrFile where
  path : String
  sourceFile : String
  content : String
  mtimeMs : Int
deriving DecidableEq

/-- `LogIndexer.indexFileIncremental` for a file that exists: detect
rewrite-in-place against the prior cursor, purge the source file's rows
when not resuming, then scan from the chosen offset with the chosen
starting line number and checkpoint the new cursor. -/
def indexFileIncremental (now : String) (file : IncrFile) (prevState : Option FileCursorState)
    (db : Db) (report : IndexReport) : Except String (Db × IndexReport × FileCursorState) :=
  let size := file.content.length
  let rewrittenInPlace : Bool :=
    match prevState with
    | some p =>
        decide (size < p.byteOffset) ||
          (decide (file.mtimeMs ≠ p.mtimeMs) && decide (size = p.byteOffset))
    | none => false
  let shouldResume : Bool :=
    match prevState with
    | some p => !rewrittenInPlace && decide (p.byteOffset ≤ size)
    | none => false
  let db0 := if prevState.isSome && !shouldResume
             then (deleteEntriesForSourceFile db file.sourceFile).1
             else db
  let startOffset : Nat :=
    match shouldResume, prevState with
    | true, some p => p.byteOffset
    | _, _ => 0
  let startLine : Nat :=
    match shouldResume, prevState with
    | true, some p => p.lineNumber
    | _, _ => 0
  let remaining := String.mk (file.content.toList.drop startOffset)
  let bytesRead := remaining.length
  match processLines file.path file.sourceFile now (fileLines remaining) startLine db0 report with
  | Except.error e => Except.error e
  | Except.ok (db1, report1, endLine) =>
      Except.ok (db1, report1,
        { byteOffset := startOffset + bytesRead, fileSize := size,
          lineNumber := endLine, mtimeMs := file.mtimeMs })

/-- Per-record normalization of `normalizeIngestRecord`: only JSON objects
are accepted; the copy gets `producerId` overwritten with the
server-derived value and `ingestedAt` set to the batch timestamp. -/
def setKvs (kvs : List (String × Jv)) (key : String) (v : Jv) : List (String × Jv) :=
  match kvs with
  | [] => [(key, v)]
  | (k, w) :: rest => if k = key then (key, v) :: rest else (k, w) :: setKvs rest key v

/-- `normalizeIngestRecord` from the ingest use case. -/
def normalizeIngestRecord (value : Jv) (producerId receivedAt : String) :
    Option (List (String × Jv)) :=
  match value with
  | Jv.jobj kvs =>
      some (setKvs (setKvs kvs ("producerId") (Jv.jstr producerId))
        ("ingestedAt") (Jv.jstr receivedAt))
  | _ => none

/-- Response body of `POST /api/ingest`. -/
structure IngestResponse where
  accepted : Nat
  queued : Bool
  producerId : String
  receivedAt : String
  rejected : Nat
deriving DecidableEq

/-- The accept/reject loop of the `/api/ingest` branch of `handleRequest`:
each element is normalized; non-objects increment `rejected`. Returns the
response and the batch of records that get persisted. -/
def handleIngest (producerId : String) (logs : List Jv) (receivedAt : String)
    (queued : Bool) : IngestResponse × List (List (String × Jv)) :=
  let accepted := logs.filterMap (fun log => normalizeIngestRecord log producerId receivedAt)
  let rejected := (logs.filter (fun log => (normalizeIngestRecord log producerId receivedAt).isNone)).length
  ({ accepted := accepted.length, queued := queued, producerId := producerId,
     receivedAt := receivedAt, rejected := rejected }, accepted)

/-- ASCII letter-or-digit test used by the producer id pattern. -/
def isAlnumChar (c : Char) : Bool :=
  (decide ('A' ≤ c) && decide (c ≤ 'Z')) ||
  (decide ('a' ≤ c) && decide (c ≤ 'z')) ||
  (decide ('0' ≤ c) && decide (c ≤ '9'))

/-- `PRODUCER_ID_PATTERN = /^[A-Za-z0-9][A-Za-z0-9._-]\x7b0,127\x7d$/`. -/
def producerIdPatternOk (s : String) : Bool :=
  match s.toList with
  | [] => false
  | c :: rest =>
      isAlnumChar c && decide (rest.length ≤ 127) &&
        rest.all (fun d => isAlnumChar d || d = '.' || d = '_' || d = '-')

/-- First-match association lookup on string maps (each configured token
occurs at most once by the duplicate check). -/
def lookupStr : List (String × String) → String → Option String
  | [], _ => none
  | (k, v) :: rest, key => if k = key then some v else lookupStr rest key

/-- The fold of `parseIngestProducerMappings` over the comma-separated
entries, accumulating validated `token=producerId` pairs. -/
def foldProducerMappings : List String → List (String × String) →
    Except String (List (String × String))
  | [], acc => Except.ok acc
  | entry :: rest, acc =>
      match entry.toList.findIdx? (fun c => c = '=') with
      | none => Except.error ("Invalid ingest producer mapping. Expected token=producerId.")
      | some i =>
          if i = 0 ∨ i = entry.length - 1 then
            Except.error ("Invalid ingest producer mapping. Expected token=producerId.")
          else
            let token := strTrim (String.mk (entry.toList.take i))
            let producerId := strTrim (String.mk (entry.toList.drop (i + 1)))
            if token = "" ∨ producerId = "" then
              Except.error ("Invalid ingest producer mapping. Expected non-empty token and producerId.")
            else if !producerIdPatternOk producerId then
              Except.error ("Invalid producerId.")
            else if acc.any (fun m => m.1 == token) then
              Except.error ("Duplicate ingest producer mapping token detected.")
            else foldProducerMappings rest (acc ++ [(token, producerId)])

/-- `parseIngestProducerMappings`: empty or missing configuration yields no
mappings; otherwise every entry is validated and collected. -/
def parseIngestProducerMappings (value : Option String) :
    Except String (List (String × String)) :=
  match value with
  | none => Except.ok []
  | some v =>
      if strTrim v = "" then Except.ok []
      else
        foldProducerMappings
          (((strSplitOn ',' v).map strTrim).filter (fun e => e ≠ "")) []

/-- `BasicAuthPolicy` from usecases/auth.ts. -/
structure BasicAuthPolicy where
  enabled : Bool
  username : Option String
  password : Option String
deriving DecidableEq

/-- The authentication material of an incoming request: decoded basic
credentials (if the Authorization header carried the Basic scheme) and the
bearer token (if it carried the Bearer scheme). -/
structure ReqAuth where
  basicCreds : Option (String × String)
  bearerToken : Option String
deriving DecidableEq

/-- `getAuthenticatedBasicUsername`: policy must be enabled with both
credentials before the request's basic credentials are compared. -/
def getAuthenticatedBasicUsername (req : ReqAuth) (policy : BasicAuthPolicy) : Option String :=
  match policy.enabled, policy.username, policy.password with
  | true, some u, some pw =>
      match req.basicCreds with
      | some (cu, cp) => if cu = u ∧ cp = pw then some cu else none
      | none => none
  | _, _, _ => none

/-- `resolveIngestProducerId`: a matching basic-auth username wins (the
JavaScript truthiness test skips an empty username), else the bearer token
is looked up in the configured map. -/
def resolveIngestProducerId (req : ReqAuth) (basicAuth : BasicAuthPolicy)
    (producerByToken : List (String × String)) : Option String :=
  match getAuthenticatedBasicUsername req basicAuth with
  | some u =>
      if u = "" then
        match req.bearerToken with
        | none => none
        | some tok => lookupStr producerByToken tok
      else some u
  | none =>
      match req.bearerToken with
      | none => none
      | some tok => lookupStr producerByToken tok

/-- Safety of a producer id used as the single directory segment in
`logs/ingest/<producerId>/`: no path separators, not a `..` traversal,
not empty. -/
def producerSegmentSafe (pid : String) : Bool :=
  !(pid.toList.any (fun c => c = '/')) && !(pid.toList.any (fun c => c = '\\')) &&
    !(("..").toList.isPrefixOf pid.toList) && !(pid = "")

/-- Outcome of one webhook fetch attempt: a 2xx response, a non-2xx status,
or a thrown network/timeout/abort error (all thrown errors are marked
retryable by `sendAlertWebhook`). -/
inductive WebhookAttempt where
  | ok
  | httpStatus (status : Nat)
  | netError
deriving DecidableEq

/-- `shouldRetryWebhookStatus`: 408, 429 and every status at or above
500. -/
def shouldRetryWebhookStatus (status : Nat) : Bool :=
  status == 408 || status == 429 || decide (500 ≤ status)

/-- Observable summary of one `sendAlertWebhook` call: whether it
delivered, how many attempts were made, and the backoff sleeps taken
between attempts (in order). -/
structure WebhookRun where
  delivered : Bool
  attemptsMade : Nat
  delays : List Nat
deriving DecidableEq

/-- The retry loop of `sendAlertWebhook`. `outcomes n` is the result of the
n-th fetch (1-based); fuel only bounds the recursion and is chosen large
enough to never run out. -/
def sendLoop (outcomes : Nat → WebhookAttempt) (maxAttempts backoffMs : Nat) :
    Nat → Nat → List Nat → WebhookRun
  | 0, attempt, delays =>
      { delivered := false, attemptsMade := attempt - 1, delays := delays.reverse }
  | fuel + 1, attempt, delays =>
      if maxAttempts < attempt then
        { delivered := false, attemptsMade := attempt - 1, delays := delays.reverse }
      else
        match outcomes attempt with
        | WebhookAttempt.ok =>
            { delivered := true, attemptsMade := attempt, delays := delays.reverse }
        | WebhookAttempt.httpStatus st =>
            if shouldRetryWebhookStatus st && decide (attempt < maxAttempts) then
              sendLoop outcomes maxAttempts backoffMs fuel (attempt + 1)
                (backoffMs * 2 ^ (attempt - 1) :: delays)
            else
              { delivered := false, attemptsMade := attempt, delays := delays.reverse }
        | WebhookAttempt.netError =>
            if decide (attempt < maxAttempts) then
              sendLoop outcomes maxAttempts backoffMs fuel (attempt + 1)
                (backoffMs * 2 ^ (attempt - 1) :: delays)
            else
              { delivered := false, attemptsMade := attempt, delays := delays.reverse }

/-- `sendAlertWebhook` over a given sequence of attempt outcomes: up to
`webhookRetryAttempts` attempts; a failed attempt is retried only when
retryable, after sleeping `webhookBackoffMs * 2^(attempt-1)`. -/
def sendAlertWebhook (outcomes : Nat → WebhookAttempt) (maxAttempts backoffMs : Nat) :
    WebhookRun :=
  sendLoop outcomes maxAttempts backoffMs (maxAttempts + 1) 1 []

/-- Integer-time association map for `last_trigger_at_by_rule` (the stored
ISO strings are modelled by their epoch-millisecond values, which is what
`Date.parse` recovers from them). -/
def lookupIntMap : List (String × Int) → String → Option Int
  | [], _ => none
  | (k, v) :: rest, key => if k = key then some v else lookupIntMap rest key

/-- Update-or-append on the `last_trigger_at_by_rule` map. -/
def setIntMap (m : List (String × Int)) (key : String) (v : Int) : List (String × Int) :=
  match m with
  | [] => [(key, v)]
  | (k, w) :: rest => if k = key then (key, v) :: rest else (k, w) :: setIntMap rest key v

/-- The alerting policy fields consulted by `runCycle`'s trigger and
cooldown logic. -/
structure AlertPolicyM where
  errorThreshold : Nat
  noLogsThresholdMinutes : Nat
  cooldownMs : Int
deriving DecidableEq

/-- The alert state fields touched by the cooldown loop. -/
structure AlertStateM where
  lastTriggerAtByRule : List (String × Int)
  sent : Nat
  suppressed : Nat
deriving DecidableEq

/-- `createAlertState`: empty trigger map and zero counters. -/
def createAlertState : AlertStateM :=
  { lastTriggerAtByRule := [], sent := 0, suppressed := 0 }

/-- One cycle's environment: the cycle start time `nowMs`, the two query
counts the rules consult, and the webhook oracle — `sendAt rule = some t`
means the delivery for `rule` succeeds and is recorded at time `t`
(`new Date()` after the send), `none` means `sendAlertWebhook` throws. -/
structure CycleEnv where
  nowMs : Int
  errorCount : Nat
  noLogsCount : Nat
  sendAt : String → Option Int

/-- The triggers a cycle evaluates, in evaluation order: the
`error_threshold` rule fires when `errorCount >= errorThreshold`, the
`no_logs` rule when it is enabled and the recent count is zero. -/
def cycleTriggers (policy : AlertPolicyM) (env : CycleEnv) : List String :=
  (if policy.errorThreshold ≤ env.errorCount then [("error_threshold")] else []) ++
    (if 0 < policy.noLogsThresholdMinutes ∧ env.noLogsCount = 0 then [("no_logs")] else [])

/-- The cooldown-guarded trigger loop of `runCycle`: a trigger whose prior
sent time is within `cooldownMs` of `nowMs` is suppressed; otherwise the
webhook is sent, and a throw aborts the remaining triggers (the outer
catch). Returns the final state and the successful send events of the
cycle in order. -/
def runTriggers (policy : AlertPolicyM) (env : CycleEnv) :
    List String → AlertStateM → AlertStateM × List (String × Int)
  | [], st => (st, [])
  | rule :: rest, st =>
      let suppressedNow : Bool :=
        match lookupIntMap st.lastTriggerAtByRule rule with
        | some t => decide (env.nowMs - t < policy.cooldownMs)
        | none => false
      if suppressedNow then
        runTriggers policy env rest { st with suppressed := st.suppressed + 1 }
      else
        match env.sendAt rule with
        | none => (st, [])
        | some sentAt =>
            let st1 : AlertStateM :=
              { st with
                lastTriggerAtByRule := setIntMap st.lastTriggerAtByRule rule sentAt,
                sent := st.sent + 1 }
            let next := runTriggers policy env rest st1
            (next.1, (rule, sentAt) :: next.2)

/-- `AlertingManager.runCycle` (the rule evaluation and cooldown part):
evaluate the triggers from the cycle's counts and run the guarded loop. -/
def runCycle (policy : AlertPolicyM) (env : CycleEnv) (st : AlertStateM) :
    AlertStateM × List (String × Int) :=
  runTriggers policy env (cycleTriggers policy env) st

/-- A sequence of alerting cycles, collecting all successful send events in
order. -/
def runTrace (policy : AlertPolicyM) : List CycleEnv → AlertStateM →
    AlertStateM × List (String × Int)
  | [], st => (st, [])
  | env :: rest, st =>
      let step := runCycle policy env st
      let tail := runTrace policy rest step.1
      (tail.1, step.2 ++ tail.2)

theorem string_length_pos {s : String} (h : s ≠ "") : 0 < s.length := by
  cases s with
  | mk d =>
      cases d with
      | nil => exact absurd rfl h
      | cons c cs => simp [String.length]

theorem string_ne_empty_of_length_pos {s : String} (h : 0 < s.length) : s ≠ "" := by
  intro he
  subst he
  simp [String.length] at h

theorem strUpper_ne_empty {s : String} (h : s ≠ "") : strUpper s ≠ "" := by
  cases s with
  | mk d =>
      cases d with
      | nil => exact absurd rfl h
      | cons c cs =>
          intro he
          have hdata := congrArg String.data he
          simp [strUpper] at hdata

/-- Modelled from the spec ("§4.2 Line processing", claim C7): `timestamp`
becomes the record's string value, defaulting to the current wall-clock
ISO timestamp when the value is missing or invalid (not a non-empty
string; the code applies no date-format validation, and the spec mandates
none either — §9 notes timestamps are used as-is). -/
def specNormalizeTimestamp (value : Option Jv) (now : String) : String :=
  match value with
  | some (Jv.jstr s) => if s = "" then now else s
  | _ => now

/-- Modelled from the spec: `level` becomes an upper-cased non-empty
string defaulting to `INFO`. -/
def specNormalizeLevel (value : Option Jv) : String :=
  match value with
  | some (Jv.jstr s) => if s = "" then "INFO" else strUpper s
  | _ => "INFO"

/-- Modelled from the spec: `message` is the value if it is a string,
empty if null or missing, and the JSON-serialization otherwise. -/
def specNormalizeMessage (value : Option Jv) : String :=
  match value with
  | some (Jv.jstr s) => s
  | none => ""
  | some Jv.jnull => ""
  | some v => jsonStringify v

/-- Modelled from the spec: `event` is a non-empty string falling back to
`message` and then the literal `"log.event"`. -/
def specNormalizeEvent (record : Jv) : String :=
  match jsGet record ("event") with
  | some (Jv.jstr s) =>
      if s = "" then
        match jsGet record ("message") with
        | some (Jv.jstr m) => if m = "" then "log.event" else m
        | _ => "log.event"
      else s
  | _ =>
      match jsGet record ("message") with
      | some (Jv.jstr m) => if m = "" then "log.event" else m
      | _ => "log.event"

theorem if_len_pos {α : Sort _} (s : String) (a b : α) :
    (if s.length > 0 then a else b) = (if s = "" then b else a) := by
  by_cases h : s = ""
  · subst h; simp [String.length]
  · rw [if_pos (string_length_pos h), if_neg h]

theorem normalizeTimestamp_eq_spec (value : Option Jv) (now : String) :
    normalizeTimestamp value now = specNormalizeTimestamp value now := by
  cases value with
  | none => rfl
  | some v => cases v <;> simp [normalizeTimestamp, specNormalizeTimestamp, if_len_pos]

theorem normalizeLevel_eq_spec (value : Option Jv) :
    normalizeLevel value = specNormalizeLevel value := by
  cases value with
  | none => rfl
  | some v => cases v <;> simp [normalizeLevel, specNormalizeLevel, if_len_pos]

theorem eventFallback_eq_spec (record : Jv) :
    eventFallback record =
      (match jsGet record ("message") with
       | some (Jv.jstr m) => if m = "" then "log.event" else m
       | _ => "log.event") := by
  cases hm : jsGet record ("message") with
  | none => simp [eventFallback, hm]
  | some v => cases v <;> simp [eventFallback, hm, if_len_pos]

theorem normalizeEvent_eq_spec (record : Jv) :
    normalizeEvent record = specNormalizeEvent record := by
  cases he : jsGet record ("event") with
  | none =>
      simp only [normalizeEvent, specNormalizeEvent, he]
      exact eventFallback_eq_spec record
  | some v =>
      cases v with
      | jstr s =>
          by_cases h : s = ""
          · simp only [normalizeEvent, specNormalizeEvent, he, if_len_pos, if_pos h]
            exact eventFallback_eq_spec record
          · simp [normalizeEvent, specNormalizeEvent, he, if_len_pos, h]
      | jnull =>
          simp only [normalizeEvent, specNormalizeEvent, he]
          exact eventFallback_eq_spec record
      | jbool b =>
          simp only [normalizeEvent, specNormalizeEvent, he]
          exact eventFallback_eq_spec record
      | jnum n =>
          simp only [normalizeEvent, specNormalizeEvent, he]
          exact eventFallback_eq_spec record
      | jarr xs =>
          simp only [normalizeEvent, specNormalizeEvent, he]
          exact eventFallback_eq_spec record
      | jobj kvs =>
          simp only [normalizeEvent, specNormalizeEvent, he]
          exact eventFallback_eq_spec record

theorem normalizeLevel_ne_empty (value : Option Jv) : normalizeLevel value ≠ "" := by
  cases value with
  | none => decide
  | some v =>
      cases v with
      | jstr s =>
          simp only [normalizeLevel, if_len_pos]
          by_cases h : s = ""
          · simp [h]
          · simp only [if_neg h]
            exact strUpper_ne_empty h
      | jnull => decide
      | jbool b => simp [normalizeLevel]
      | jnum n => simp [normalizeLevel]
      | jarr xs => simp [normalizeLevel]
      | jobj kvs => simp [normalizeLevel]

theorem eventFallback_ne_empty (record : Jv) : eventFallback record ≠ "" := by
  cases hm : jsGet record ("message") with
  | none => simp [eventFallback, hm]
  | some v =>
      cases v with
      | jstr m =>
          simp only [eventFallback, hm, if_len_pos]
          by_cases h : m = ""
          · simp [h]
          · simp only [if_neg h]
            exact h
      | jnull => simp [eventFallback, hm]
      | jbool b => simp [eventFallback, hm]
      | jnum n => simp [eventFallback, hm]
      | jarr xs => simp [eventFallback, hm]
      | jobj kvs => simp [eventFallback, hm]

theorem normalizeEvent_ne_empty (record : Jv) : normalizeEvent record ≠ "" := by
  cases he : jsGet record ("event") with
  | none =>
      simp only [normalizeEvent, he]
      exact eventFallback_ne_empty record
  | some v =>
      cases v with
      | jstr s =>
          simp only [normalizeEvent, he, if_len_pos]
          by_cases h : s = ""
          · simp only [if_pos h]
            exact eventFallback_ne_empty record
          · simp only [if_neg h]
            exact h
      | jnull => simp only [normalizeEvent, he]; exact eventFallback_ne_empty record
      | jbool b => simp only [normalizeEvent, he]; exact eventFallback_ne_empty record
      | jnum n => simp only [normalizeEvent, he]; exact eventFallback_ne_empty record
      | jarr xs => simp only [normalizeEvent, he]; exact eventFallback_ne_empty record
      | jobj kvs => simp only [normalizeEvent, he]; exact eventFallback_ne_empty record

/-- C7: for every successfully parsed record, the indexer normalizes
`timestamp` to the record's string value (defaulting to the current
wall-clock ISO timestamp when the value is not a non-empty string — the
only validity check the pipeline applies), `level` to an upper-cased
non-empty string defaulting to `INFO`, `event` to a non-empty string
falling back to `message` and then `"log.event"`, and `message` to the
string value, `""` for null/missing, or the JSON serialization
otherwise. -/
theorem indexer_normalization_matches_spec (value : Option Jv) (record : Jv) (now : String) :
    normalizeTimestamp value now = specNormalizeTimestamp value now ∧
    normalizeLevel value = specNormalizeLevel value ∧
    normalizeEvent record = specNormalizeEvent record ∧
    normalizeMessage value = specNormalizeMessage value ∧
    normalizeLevel value ≠ "" ∧
    normalizeEvent record ≠ "" :=
  ⟨normalizeTimestamp_eq_spec value now, normalizeLevel_eq_spec value,
   normalizeEvent_eq_spec record, rfl, normalizeLevel_ne_empty value,
   normalizeEvent_ne_empty record⟩

theorem isPrefixOf_iff_append : ∀ (l m : List Char),
    l.isPrefixOf m = true ↔ ∃ t, m = l ++ t := by
  intro l
  induction l with
  | nil =>
      intro m
      constructor
      · intro _; exact ⟨m, rfl⟩
      · intro _; cases m <;> rfl
  | cons a as ih =>
      intro m
      cases m with
      | nil =>
          constructor
          · intro h; simp [List.isPrefixOf] at h
          · rintro ⟨t, ht⟩; simp at ht
      | cons b bs =>
          constructor
          · intro h
            simp only [List.isPrefixOf, Bool.and_eq_true, beq_iff_eq] at h
            obtain ⟨t, ht⟩ := (ih bs).mp h.2
            exact ⟨t, by simp [h.1, ht]⟩
          · rintro ⟨t, ht⟩
            simp only [List.cons_append, List.cons.injEq] at ht
            simp only [List.isPrefixOf, Bool.and_eq_true, beq_iff_eq]
            exact ⟨ht.1.symm, (ih bs).mpr ⟨t, ht.2⟩⟩

theorem containsSub_iff (needle : List Char) : ∀ (hay : List Char),
    containsSub needle hay = true ↔ ∃ pre post, hay = pre ++ needle ++ post := by
  intro hay
  induction hay with
  | nil =>
      simp only [containsSub, List.isEmpty_iff]
      constructor
      · intro h; exact ⟨[], [], by simp [h]⟩
      · rintro ⟨pre, post, hp⟩
        rcases List.append_eq_nil.mp (List.append_eq_nil.mp hp.symm).1 with ⟨_, h2⟩
        exact h2
  | cons c rest ih =>
      simp only [containsSub, Bool.or_eq_true]
      constructor
      · rintro (h | h)
        · obtain ⟨t, ht⟩ := (isPrefixOf_iff_append needle (c :: rest)).mp h
          exact ⟨[], t, by simp [ht]⟩
        · obtain ⟨pre, post, hp⟩ := ih.mp h
          exact ⟨c :: pre, post, by simp [hp]⟩
      · rintro ⟨pre, post, hp⟩
        cases pre with
        | nil =>
            left
            exact (isPrefixOf_iff_append needle (c :: rest)).mpr ⟨post, by simpa using hp⟩
        | cons p ps =>
            right
            simp only [List.cons_append, List.cons.injEq] at hp
            exact ih.mpr ⟨ps, post, hp.2⟩

/-- Modelled from the spec sentence behind claim C6 (its fallback clause):
`is_audit` falls back to "the file path contains a path segment `audit`
(case-insensitive) or the file's basename contains `audit`". -/
def claimAuditPathFallback (filePath : String) : Bool :=
  ((strSplitOn '/' (strLower filePath)).contains ("audit")) ||
    containsSub ("audit").toList (basenameOf (strLower filePath)).toList

/-- Modelled from claim C6 as stated: an explicit boolean or
stringified-boolean `audit` value wins; otherwise the path/basename
fallback decides. -/
def claimDerivedAudit (record : Jv) (filePath : String) : Bool :=
  match jsGet record ("audit") with
  | some (Jv.jbool b) => b
  | some (Jv.jstr s) =>
      if strLower (strTrim s) = "true" then true
      else if strLower (strTrim s) = "false" then false
      else claimAuditPathFallback filePath
  | _ => claimAuditPathFallback filePath

/-- C6 fails on the code: for a record without an explicit audit value in
the file `/logs/audit.ndjson`, the claim's derivation (basename contains
`audit`) gives `true`, but `normalizeAudit` only tests for a `/audit/`
path segment and gives `false`. -/
theorem audit_derivation_counterexample :
    normalizeAudit (Jv.jobj []) ("/logs/audit.ndjson") = false ∧
      claimDerivedAudit (Jv.jobj []) ("/logs/audit.ndjson") = true := by
  constructor
  · rfl
  · rfl

/-- Modelled from the amended claim: an explicit boolean wins; a numeric
value counts as its truthiness; a trimmed lower-cased string among
`true/1/yes` (resp. `false/0/no`) wins; otherwise `is_audit` is true
exactly when the lower-cased file path contains `/audit/`, i.e. some full
directory segment equals `audit`. The basename is not consulted. -/
def amendedDerivedAudit (record : Jv) (filePath : String) : Bool :=
  match jsGet record ("audit") with
  | some (Jv.jbool b) => b
  | some (Jv.jnum n) => decide (n ≠ 0)
  | some (Jv.jstr s) =>
      let t := strLower (strTrim s)
      if t = "true" ∨ t = "1" ∨ t = "yes" then true
      else if t = "false" ∨ t = "0" ∨ t = "no" then false
      else containsSub ("/audit/").toList (strLower filePath).toList
  | _ => containsSub ("/audit/").toList (strLower filePath).toList

/-- C6 (amended): `normalizeAudit` derives `is_audit` as the amended claim
states, and the path fallback holds exactly when `/audit/` occurs as a
substring of the lower-cased path — equivalently, some directory segment
equals `audit`. -/
theorem audit_derivation_amended (record : Jv) (filePath : String) :
    normalizeAudit record filePath = amendedDerivedAudit record filePath ∧
      (pathHasAuditSegment filePath = true ↔
        ∃ pre post, (strLower filePath).toList = pre ++ ("/audit/").toList ++ post) := by
  constructor
  · cases ha : jsGet record ("audit") with
    | none => simp [normalizeAudit, amendedDerivedAudit, ha, pathHasAuditSegment]
    | some v =>
        cases v with
        | jnull => simp [normalizeAudit, amendedDerivedAudit, ha, pathHasAuditSegment]
        | jbool b => simp [normalizeAudit, amendedDerivedAudit, ha]
        | jnum n =>
            simp only [normalizeAudit, amendedDerivedAudit, ha]
            by_cases h : n = 0
            · subst h; rfl
            · simp [h]
        | jstr s => simp [normalizeAudit, amendedDerivedAudit, ha, pathHasAuditSegment]
        | jarr xs => simp [normalizeAudit, amendedDerivedAudit, ha, pathHasAuditSegment]
        | jobj kvs => simp [normalizeAudit, amendedDerivedAudit, ha, pathHasAuditSegment]
  · exact containsSub_iff ("/audit/").toList (strLower filePath).toList

theorem lookup_setKvs_self : ∀ (kvs : List (String × Jv)) (k : String) (v : Jv),
    lookupKvs (setKvs kvs k v) k = some v := by
  intro kvs k v
  induction kvs with
  | nil => simp [setKvs, lookupKvs]
  | cons kv rest ih =>
      obtain ⟨k0, v0⟩ := kv
      by_cases h : k0 = k
      · simp [setKvs, lookupKvs, h]
      · simp [setKvs, lookupKvs, h, ih]

theorem lookup_setKvs_other : ∀ (kvs : List (String × Jv)) (k k' : String) (v : Jv),
    k' ≠ k → lookupKvs (setKvs kvs k v) k' = lookupKvs kvs k' := by
  intro kvs k k' v hne
  induction kvs with
  | nil =>
      simp only [setKvs, lookupKvs]
      rw [if_neg (fun h => hne h.symm)]
  | cons kv rest ih =>
      obtain ⟨k0, v0⟩ := kv
      by_cases h : k0 = k
      · subst h
        simp only [setKvs, if_pos rfl, lookupKvs]
        rw [if_neg (fun h => hne h.symm), if_neg (fun h => hne h.symm)]
      · simp only [setKvs, if_neg h, lookupKvs]
        by_cases h2 : k0 = k'
        · simp [h2]
        · simp [h2, ih]

theorem setKvs_setKvs_same : ∀ (kvs : List (String × Jv)) (k : String) (a b : Jv),
    setKvs (setKvs kvs k a) k b = setKvs kvs k b := by
  intro kvs k a b
  induction kvs with
  | nil => simp [setKvs]
  | cons kv rest ih =>
      obtain ⟨k0, v0⟩ := kv
      by_cases h : k0 = k
      · simp [setKvs, h]
      · simp [setKvs, h, ih]

/-- C3: every record accepted by the ingest branch stores the
server-resolved producer id in its `producerId` field, the response echoes
that same id, and normalizing a payload record is insensitive to whatever
`producerId` the payload claimed. -/
theorem ingest_producer_forgery_resistance (logs : List Jv) (pid t : String) (q : Bool) :
    (∀ rec ∈ (handleIngest pid logs t q).2,
        lookupKvs rec ("producerId") = some (Jv.jstr pid)) ∧
    (handleIngest pid logs t q).1.producerId = pid ∧
    (∀ kvs a b,
        normalizeIngestRecord (Jv.jobj (setKvs kvs ("producerId") a)) pid t =
          normalizeIngestRecord (Jv.jobj (setKvs kvs ("producerId") b)) pid t) := by
  refine ⟨?_, rfl, ?_⟩
  · intro rec hrec
    simp only [handleIngest, List.mem_filterMap] at hrec
    obtain ⟨log, _, hn⟩ := hrec
    cases log with
    | jobj kvs =>
        simp only [normalizeIngestRecord, Option.some.injEq] at hn
        subst hn
        rw [lookup_setKvs_other _ _ _ _ (by decide)]
        exact lookup_setKvs_self _ _ _
    | jnull => simp [normalizeIngestRecord] at hn
    | jbool b => simp [normalizeIngestRecord] at hn
    | jnum n => simp [normalizeIngestRecord] at hn
    | jstr s => simp [normalizeIngestRecord] at hn
    | jarr xs => simp [normalizeIngestRecord] at hn
  · intro kvs a b
    simp [normalizeIngestRecord, setKvs_setKvs_same]

/-- Witness for C3 at the spec's S5 scenario: a payload claiming
`producerId = "spoofed"` under producer `frontend-web` stores
`frontend-web`. -/
theorem ingest_producer_forgery_witness :
    lookupKvs
      (setKvs (setKvs [(("producerId" : String), Jv.jstr ("spoofed"))]
        ("producerId") (Jv.jstr ("frontend-web"))) ("ingestedAt") (Jv.jstr ("T0")))
      ("producerId") = some (Jv.jstr ("frontend-web")) := by
  have h := (ingest_producer_forgery_resistance
    [Jv.jobj [(("producerId" : String), Jv.jstr ("spoofed"))]]
    ("frontend-web") ("T0") false).1
  exact h _ (List.Mem.head _)

/-- Whether `sendAlertWebhook` treats an attempt outcome as retryable. -/
def retryableOutcome : WebhookAttempt → Bool
  | WebhookAttempt.ok => false
  | WebhookAttempt.httpStatus st => shouldRetryWebhookStatus st
  | WebhookAttempt.netError => true

theorem sendLoop_spec (outcomes : Nat → WebhookAttempt) (maxA backoff : Nat) :
    ∀ (fuel attempt : Nat) (delays : List Nat),
      maxA + 2 ≤ fuel + attempt →
      (attempt = 1 ∨ attempt ≤ maxA) →
      1 ≤ attempt →
      delays = ((List.range (attempt - 1)).map (fun k => backoff * 2 ^ k)).reverse →
      (sendLoop outcomes maxA backoff fuel attempt delays).attemptsMade ≤ maxA ∧
      (sendLoop outcomes maxA backoff fuel attempt delays).delays =
        (List.range ((sendLoop outcomes maxA backoff fuel attempt delays).attemptsMade - 1)).map
          (fun k => backoff * 2 ^ k) ∧
      (∀ k, attempt ≤ k →
        k < (sendLoop outcomes maxA backoff fuel attempt delays).attemptsMade →
        retryableOutcome (outcomes k) = true) ∧
      ((sendLoop outcomes maxA backoff fuel attempt delays).delivered = true →
        outcomes (sendLoop outcomes maxA backoff fuel attempt delays).attemptsMade =
          WebhookAttempt.ok) := by
  intro fuel
  induction fuel with
  | zero =>
      intro attempt delays h1 h2 h3 _
      rcases h2 with h2 | h2 <;> omega
  | succ f ih =>
      intro attempt delays h1 h2 h3 hd
      by_cases hover : maxA < attempt
      · have ha1 : attempt = 1 := by rcases h2 with h | h <;> omega
        have hm0 : maxA = 0 := by omega
        subst ha1
        subst hm0
        simp only [sendLoop, if_pos (by decide : (0 : Nat) < 1)]
        refine ⟨by simp, by simp [hd], ?_, ?_⟩
        · intro k hk1 hk2
          simp at hk2
        · intro hdel
          simp at hdel
      · have hle : attempt ≤ maxA := Nat.not_lt.mp hover
        obtain ⟨n, rfl⟩ : ∃ n, attempt = n + 1 := ⟨attempt - 1, by omega⟩
        have hd2 : delays = ((List.range n).map (fun k => backoff * 2 ^ k)).reverse := by
          simpa using hd
        have hrangesucc :
            backoff * 2 ^ n :: delays =
              ((List.range (n + 1)).map (fun k => backoff * 2 ^ k)).reverse := by
          rw [List.range_succ, List.map_append, List.reverse_append, hd2]
          simp
        cases ho : outcomes (n + 1) with
        | ok =>
            simp only [sendLoop, if_neg hover, ho]
            refine ⟨hle, by simp [hd2], ?_, ?_⟩
            · intro k hk1 hk2
              have hklt : k < n + 1 := hk2
              omega
            · intro _
              simpa using ho
        | httpStatus st =>
            simp only [sendLoop, if_neg hover, ho]
            cases hb : (shouldRetryWebhookStatus st && decide (n + 1 < maxA)) with
            | false =>
                rw [if_neg (by simp [hb])]
                refine ⟨hle, by simp [hd2], ?_, ?_⟩
                · intro k hk1 hk2
                  have hklt : k < n + 1 := hk2
                  omega
                · intro hdel
                  simp at hdel
            | true =>
                rw [if_pos rfl]
                have hblt : n + 1 < maxA := by
                  have := (Bool.and_eq_true _ _).mp hb
                  simpa using this.2
                have hretry : shouldRetryWebhookStatus st = true :=
                  ((Bool.and_eq_true _ _).mp hb).1
                have hih := ih (n + 2) (backoff * 2 ^ n :: delays)
                  (by omega) (Or.inr (by omega)) (by omega)
                  (by simpa using hrangesucc)
                refine ⟨hih.1, hih.2.1, ?_, hih.2.2.2⟩
                intro k hk1 hk2
                by_cases hk : k = n + 1
                · subst hk
                  simp [retryableOutcome, ho, hretry]
                · exact hih.2.2.1 k (by omega) hk2
        | netError =>
            simp only [sendLoop, if_neg hover, ho]
            cases hb : (decide (n + 1 < maxA)) with
            | false =>
                rw [if_neg (by simp [hb])]
                refine ⟨hle, by simp [hd2], ?_, ?_⟩
                · intro k hk1 hk2
                  have hklt : k < n + 1 := hk2
                  omega
                · intro hdel
                  simp at hdel
            | true =>
                rw [if_pos rfl]
                have hblt : n + 1 < maxA := by simpa using hb
                have hih := ih (n + 2) (backoff * 2 ^ n :: delays)
                  (by omega) (Or.inr (by omega)) (by omega)
                  (by simpa using hrangesucc)
                refine ⟨hih.1, hih.2.1, ?_, hih.2.2.2⟩
                intro k hk1 hk2
                by_cases hk : k = n + 1
                · subst hk
                  simp [retryableOutcome, ho]
                · exact hih.2.2.1 k (by omega) hk2

/-- C8: a single alert delivery makes at most `webhookRetryAttempts`
attempts; every attempt that is followed by another failed retryably
(status 408, 429, `>= 500`, or a network/timeout/abort error); the k-th
sleep between attempts is `webhookBackoffMs * 2^(k-1)`; and a terminal
status such as 400 on the first attempt yields exactly one attempt and no
delivery. -/
theorem webhook_retry_spec (outcomes : Nat → WebhookAttempt) (maxA backoff : Nat) :
    (sendAlertWebhook outcomes maxA backoff).attemptsMade ≤ maxA ∧
    (sendAlertWebhook outcomes maxA backoff).delays =
      (List.range ((sendAlertWebhook outcomes maxA backoff).attemptsMade - 1)).map
        (fun k => backoff * 2 ^ k) ∧
    (∀ k, 1 ≤ k → k < (sendAlertWebhook outcomes maxA backoff).attemptsMade →
      retryableOutcome (outcomes k) = true) ∧
    ((sendAlertWebhook outcomes maxA backoff).delivered = true →
      outcomes (sendAlertWebhook outcomes maxA backoff).attemptsMade = WebhookAttempt.ok) ∧
    (∀ st, shouldRetryWebhookStatus st = false → outcomes 1 = WebhookAttempt.httpStatus st →
      1 ≤ maxA →
      (sendAlertWebhook outcomes maxA backoff).attemptsMade = 1 ∧
      (sendAlertWebhook outcomes maxA backoff).delivered = false) ∧
    shouldRetryWebhookStatus 400 = false := by
  have h := sendLoop_spec outcomes maxA backoff (maxA + 1) 1 [] (by omega) (Or.inl rfl)
    (by omega) (by simp)
  refine ⟨h.1, h.2.1, h.2.2.1, h.2.2.2, ?_, by decide⟩
  intro st hst ho hmax
  obtain ⟨m, rfl⟩ : ∃ m, maxA = m + 1 := ⟨maxA - 1, by omega⟩
  unfold sendAlertWebhook
  simp only [sendLoop, ho]
  rw [if_neg (by omega : ¬ (m + 1 < 1))]
  rw [if_neg (by simp [hst])]
  exact ⟨rfl, rfl⟩

/-- Witness for C8: a 400 response on the first attempt yields exactly one
attempt and no delivery (policy defaults: 3 attempts, 250 ms backoff). -/
theorem webhook_retry_witness :
    (sendAlertWebhook (fun _ => WebhookAttempt.httpStatus 400) 3 250).attemptsMade = 1 ∧
    (sendAlertWebhook (fun _ => WebhookAttempt.httpStatus 400) 3 250).delivered = false :=
  (webhook_retry_spec (fun _ => WebhookAttempt.httpStatus 400) 3 250).2.2.2.2.1
    400 (by decide) rfl (by omega)

theorem foldFields_entries (eid : Nat) :
    ∀ (l : List (String × Jv)) (db : Db),
      (l.foldl (fun d kv =>
        if isScalar kv.2 then upsertField d eid kv.1 (jsStringOfScalar kv.2) else d) db).entries =
        db.entries := by
  intro l
  induction l with
  | nil => intro db; rfl
  | cons kv rest ih =>
      intro db
      rw [List.foldl_cons, ih]
      by_cases h : isScalar kv.2 = true
      · rw [if_pos h]
        unfold upsertField
        by_cases h2 : (db.fields.any fun f =>
            f.entryId == eid && f.key == kv.1 && f.valueText == jsStringOfScalar kv.2) = true
        · rw [if_pos h2]
        · rw [if_neg h2]
      · rw [if_neg h]

theorem findEntry_isSome_after_insert (db : Db) (input : UpsertEntryInput) :
    (findEntry (upsertEntry db input).1 input.sourceFile input.lineNumber).isSome = true := by
  unfold upsertEntry
  cases hf : findEntry db input.sourceFile input.lineNumber with
  | some e => simp [hf]
  | none =>
      simp only [hf]
      unfold findEntry at hf ⊢
      simp only [List.find?_append, hf]
      simp [List.find?]

/-- C4 fails on the code: the line `5` is valid JSON but not a JSON
object; `processLine` inserts an entry for it and does not count a parse
error, while the claim demands a parse error and no entry. -/
theorem processLine_nonobject_counterexample :
    (processLine ("/f.ndjson") ("f.ndjson") ("5") 1 ("T0") emptyDb emptyReport).toOption.map
        (fun p => (p.2.parseErrors, p.2.recordsInserted, p.1.entries.length)) =
      some (0, 1, 1) := by rfl

theorem upsertEntry_not_inserted_eq (db : Db) (input : UpsertEntryInput)
    (h : (upsertEntry db input).2.inserted = false) :
    (upsertEntry db input).1 = db ∧
      (findEntry db input.sourceFile input.lineNumber).isSome = true := by
  unfold upsertEntry at h ⊢
  cases hf : findEntry db input.sourceFile input.lineNumber with
  | some e => simp [hf]
  | none => simp [hf] at h

theorem upsertBranch_spec (db : Db) (report : IndexReport) (input : UpsertEntryInput)
    (fields : List (String × Jv)) :
    ∃ db2 rep2,
      (if (upsertEntry db input).2.inserted then
         (Except.ok
           (fields.foldl (fun d kv =>
             if isScalar kv.2 then
               upsertField d (upsertEntry db input).2.entryId kv.1 (jsStringOfScalar kv.2)
             else d) (upsertEntry db input).1,
            { report with recordsInserted := report.recordsInserted + 1 }) :
           Except String (Db × IndexReport))
       else
         Except.ok ((upsertEntry db input).1,
           { report with recordsSkipped := report.recordsSkipped + 1 })) =
        Except.ok (db2, rep2) ∧
      rep2.parseErrors = report.parseErrors ∧
      rep2.recordsInserted + rep2.recordsSkipped =
        report.recordsInserted + report.recordsSkipped + 1 ∧
      (findEntry db2 input.sourceFile input.lineNumber).isSome = true := by
  cases hres : (upsertEntry db input).2.inserted with
  | true =>
      refine ⟨fields.foldl (fun d kv =>
          if isScalar kv.2 then
            upsertField d (upsertEntry db input).2.entryId kv.1 (jsStringOfScalar kv.2)
          else d) (upsertEntry db input).1,
        { report with recordsInserted := report.recordsInserted + 1 },
        by simp, rfl,
        by
          show (report.recordsInserted + 1) + report.recordsSkipped =
            report.recordsInserted + report.recordsSkipped + 1
          omega, ?_⟩
      show (findEntry _ input.sourceFile input.lineNumber).isSome = true
      unfold findEntry
      rw [show (List.foldl (fun d kv =>
          if isScalar kv.2 = true then
            upsertField d (upsertEntry db input).2.entryId kv.1 (jsStringOfScalar kv.2)
          else d) (upsertEntry db input).1 fields).entries =
            ((upsertEntry db input).1).entries from foldFields_entries _ fields _]
      exact findEntry_isSome_after_insert db input
  | false =>
      obtain ⟨hdb, hfind⟩ := upsertEntry_not_inserted_eq db input hres
      refine ⟨(upsertEntry db input).1,
        { report with recordsSkipped := report.recordsSkipped + 1 },
        by simp, rfl,
        by
          show report.recordsInserted + (report.recordsSkipped + 1) =
            report.recordsInserted + report.recordsSkipped + 1
          omega, ?_⟩
      rw [hdb]
      exact hfind

/-- C4 (amended): a trimmed-empty line is skipped without an entry or a
parse error; a line that is not valid JSON increments `parseErrors` and
inserts nothing; a line parsing to JSON `null` throws; and every line
parsing to any other JSON value — object or not — reaches the upsert,
leaving an entry stored under its `(source_file, line_number)` key. -/
theorem processLine_amended (filePath sourceFile line : String) (lineNumber : Nat)
    (now : String) (db : Db) (report : IndexReport) :
    (strTrim line = "" →
      processLine filePath sourceFile line lineNumber now db report = Except.ok (db, report)) ∧
    (strTrim line ≠ "" → parseJson (strTrim line) = none →
      processLine filePath sourceFile line lineNumber now db report =
        Except.ok (db, { report with parseErrors := report.parseErrors + 1 })) ∧
    (parseJson (strTrim line) = some Jv.jnull →
      ∃ e, processLine filePath sourceFile line lineNumber now db report = Except.error e) ∧
    (∀ record, parseJson (strTrim line) = some record → record ≠ Jv.jnull →
      ∃ db2 rep2,
        processLine filePath sourceFile line lineNumber now db report =
          Except.ok (db2, rep2) ∧
        rep2.parseErrors = report.parseErrors ∧
        rep2.recordsInserted + rep2.recordsSkipped =
          report.recordsInserted + report.recordsSkipped + 1 ∧
        (findEntry db2 sourceFile lineNumber).isSome = true) := by
  have hempty : parseJson ("") = none := rfl
  refine ⟨?_, ?_, ?_, ?_⟩
  · intro ht
    unfold processLine
    rw [if_pos ht]
  · intro ht hp
    unfold processLine
    rw [if_neg ht]
    simp only [hp]
  · intro hp
    have ht : strTrim line ≠ "" := by
      intro he
      rw [he, hempty] at hp
      exact Option.noConfusion hp
    unfold processLine
    rw [if_neg ht]
    simp only [hp]
    exact ⟨_, rfl⟩
  · intro record hp hnn
    have ht : strTrim line ≠ "" := by
      intro he
      rw [he, hempty] at hp
      exact Option.noConfusion hp
    unfold processLine
    rw [if_neg ht]
    simp only [hp]
    cases record with
    | jnull => exact absurd rfl hnn
    | jbool b => exact upsertBranch_spec db report _ _
    | jnum n => exact upsertBranch_spec db report _ _
    | jstr str => exact upsertBranch_spec db report _ _
    | jarr xs => exact upsertBranch_spec db report _ _
    | jobj kvs => exact upsertBranch_spec db report _ _

/-- Witness for C4 (amended), parse-error branch: the line `not-json`
increments `parseErrors` and leaves the store untouched. -/
theorem processLine_amended_witness :
    processLine ("/f.ndjson") ("f.ndjson") ("not-json") 1 ("T0") emptyDb emptyReport =
      Except.ok (emptyDb, { emptyReport with parseErrors := 1 }) :=
  (processLine_amended ("/f.ndjson") ("f.ndjson") ("not-json") 1 ("T0") emptyDb
    emptyReport).2.1 (by decide) rfl

theorem lookupStr_mem : ∀ (m : List (String × String)) (k v : String),
    lookupStr m k = some v → (k, v) ∈ m := by
  intro m
  induction m with
  | nil => intro k v h; exact Option.noConfusion h
  | cons kv rest ih =>
      intro k v h
      obtain ⟨k0, v0⟩ := kv
      unfold lookupStr at h
      by_cases hk : k0 = k
      · rw [if_pos hk] at h
        injection h with h
        subst hk
        subst h
        exact List.mem_cons_self _ _
      · rw [if_neg hk] at h
        exact List.mem_cons_of_mem _ (ih k v h)

theorem allowedChar_ne (d : Char)
    (h : (isAlnumChar d || d = '.' || d = '_' || d = '-') = true) :
    d ≠ '/' ∧ d ≠ '\\' := by
  simp only [Bool.or_eq_true, decide_eq_true_eq] at h
  rcases h with ((halnum | hdot) | hus) | hdash
  · constructor <;> intro he <;> subst he <;> exact absurd halnum (by decide)
  · subst hdot; exact ⟨by decide, by decide⟩
  · subst hus; exact ⟨by decide, by decide⟩
  · subst hdash; exact ⟨by decide, by decide⟩

theorem alnum_ne (c : Char) (h : isAlnumChar c = true) :
    c ≠ '/' ∧ c ≠ '\\' ∧ c ≠ '.' := by
  refine ⟨?_, ?_, ?_⟩ <;> intro he <;> subst he <;> exact absurd h (by decide)

theorem patternOk_safe (pid : String) (h : producerIdPatternOk pid = true) :
    producerSegmentSafe pid = true := by
  unfold producerIdPatternOk at h
  cases hl : pid.toList with
  | nil => rw [hl] at h; exact Bool.noConfusion h
  | cons c rest =>
      rw [hl] at h
      have hsplit := (Bool.and_eq_true _ _).mp h
      have hclen := (Bool.and_eq_true _ _).mp hsplit.1
      have hc : isAlnumChar c = true := hclen.1
      have hall : ∀ d ∈ rest, (isAlnumChar d || d = '.' || d = '_' || d = '-') = true := by
        intro d hd
        exact List.all_eq_true.mp hsplit.2 d hd
      have hne : ∀ d ∈ c :: rest, d ≠ '/' ∧ d ≠ '\\' := by
        intro d hd
        rcases List.mem_cons.mp hd with hd | hd
        · subst hd
          obtain ⟨h1, h2, _⟩ := alnum_ne d hc
          exact ⟨h1, h2⟩
        · exact allowedChar_ne d (hall d hd)
      unfold producerSegmentSafe
      rw [hl]
      have hslash : ((c :: rest).any (fun d => decide (d = '/'))) = false := by
        rw [Bool.eq_false_iff]
        intro hany
        obtain ⟨d, hd, he⟩ := List.any_eq_true.mp hany
        exact (hne d hd).1 (by simpa using he)
      have hback : ((c :: rest).any (fun d => decide (d = '\\'))) = false := by
        rw [Bool.eq_false_iff]
        intro hany
        obtain ⟨d, hd, he⟩ := List.any_eq_true.mp hany
        exact (hne d hd).2 (by simpa using he)
      have hdots : (("..").toList.isPrefixOf (c :: rest)) = false := by
        have hcdot : c ≠ '.' := (alnum_ne c hc).2.2
        show (('.' :: '.' :: []).isPrefixOf (c :: rest)) = false
        simp only [List.isPrefixOf, Bool.and_eq_false_iff]
        left
        simp [beq_eq_false_iff_ne]
        exact fun he => hcdot he.symm
      have hne2 : (pid = "") = False := by
        simp only [eq_iff_iff, iff_false]
        intro he
        rw [he] at hl
        exact List.noConfusion hl
      rw [hslash, hback, hdots]
      simp [hne2]

/-- The claim C10's conclusion fails on the code: a basic-auth username is
used as the producer id without pattern validation, so a configured
username `../evil` resolves to a producer id containing a path separator
and a `..` traversal prefix. -/
theorem producer_id_escape_counterexample :
    resolveIngestProducerId
        { basicCreds := some (("../evil"), ("pw")), bearerToken := none }
        { enabled := true, username := some ("../evil"), password := some ("pw") } [] =
      some ("../evil") ∧
    producerSegmentSafe ("../evil") = false := by
  constructor
  · rfl
  · rfl

theorem foldProducerMappings_inv : ∀ (entries : List String) (acc m : List (String × String)),
    (∀ p ∈ acc, producerIdPatternOk p.2 = true) → (acc.map Prod.fst).Nodup →
    foldProducerMappings entries acc = Except.ok m →
    (∀ p ∈ m, producerIdPatternOk p.2 = true) ∧ (m.map Prod.fst).Nodup := by
  intro entries
  induction entries with
  | nil =>
      intro acc m h1 h2 hok
      unfold foldProducerMappings at hok
      injection hok with hok
      subst hok
      exact ⟨h1, h2⟩
  | cons entry rest ih =>
      intro acc m h1 h2 hok
      unfold foldProducerMappings at hok
      cases hfind : entry.toList.findIdx? (fun c => c = '=') with
      | none => simp only [hfind] at hok; exact Except.noConfusion hok
      | some i =>
          simp only [hfind] at hok
          by_cases hi : i = 0 ∨ i = entry.length - 1
          · rw [if_pos hi] at hok; exact Except.noConfusion hok
          · rw [if_neg hi] at hok
            by_cases h0 : strTrim (String.mk (entry.toList.take i)) = "" ∨
                strTrim (String.mk (entry.toList.drop (i + 1))) = ""
            · rw [if_pos h0] at hok; exact Except.noConfusion hok
            · rw [if_neg h0] at hok
              cases hpat : producerIdPatternOk (strTrim (String.mk (entry.toList.drop (i + 1)))) with
              | false =>
                  have hcond : (!producerIdPatternOk
                      (strTrim (String.mk (entry.toList.drop (i + 1))))) = true := by
                    rw [hpat]
                    decide
                  rw [if_pos hcond] at hok
                  exact Except.noConfusion hok
              | true =>
                  have hcond : ¬ ((!producerIdPatternOk
                      (strTrim (String.mk (entry.toList.drop (i + 1))))) = true) := by
                    rw [hpat]
                    decide
                  rw [if_neg hcond] at hok
                  cases hdup : acc.any (fun mp =>
                      mp.1 == strTrim (String.mk (entry.toList.take i))) with
                  | true =>
                      rw [if_pos hdup] at hok
                      exact Except.noConfusion hok
                  | false =>
                      have hcond2 : ¬ ((acc.any fun mp =>
                          mp.1 == strTrim (String.mk (entry.toList.take i))) = true) := by
                        rw [hdup]
                        decide
                      rw [if_neg hcond2] at hok
                      refine ih _ m ?_ ?_ hok
                      · intro p hp
                        rcases List.mem_append.mp hp with hp | hp
                        · exact h1 p hp
                        · rcases List.mem_singleton.mp hp with rfl
                          exact hpat
                      · rw [List.map_append]
                        rw [List.nodup_append]
                        refine ⟨h2, List.nodup_singleton _, ?_⟩
                        intro a ha hb
                        obtain ⟨q, hqmem, hqeq⟩ := List.mem_map.mp hb
                        have hq1 : q = (strTrim (String.mk (entry.toList.take i)),
                            strTrim (String.mk (entry.toList.drop (i + 1)))) :=
                          List.mem_singleton.mp hqmem
                        obtain ⟨w, hwmem, hweq⟩ := List.mem_map.mp ha
                        have hwany : (acc.any fun mp =>
                            mp.1 == strTrim (String.mk (entry.toList.take i))) = true := by
                          refine List.any_eq_true.mpr ⟨w, hwmem, ?_⟩
                          have hw1 : w.1 = strTrim (String.mk (entry.toList.take i)) := by
                            rw [hweq, ← hqeq, hq1]
                          rw [hw1]
                          exact beq_self_eq_true _
                        rw [hdup] at hwany
                        exact Bool.noConfusion hwany

/-- C10 (amended): every configured `token=producerId` mapping is
validated at parse time — producer ids match the pattern and tokens are
unique, any violation raising an error — so every ingest request resolved
through the token mapping (i.e. not through basic auth) gets a producer
id that matches the pattern and cannot escape the
`logs/ingest/<producerId>/` directory. Producer ids resolved from a
matching basic-auth username bypass this validation. -/
theorem producer_mappings_validated :
    (∀ v m, parseIngestProducerMappings v = Except.ok m →
      (∀ p ∈ m, producerIdPatternOk p.2 = true) ∧ (m.map Prod.fst).Nodup) ∧
    (∀ (req : ReqAuth) (basic : BasicAuthPolicy) (v : Option String)
        (mapping : List (String × String)) (pid : String),
      parseIngestProducerMappings v = Except.ok mapping →
      getAuthenticatedBasicUsername req basic = none →
      resolveIngestProducerId req basic mapping = some pid →
      producerIdPatternOk pid = true ∧ producerSegmentSafe pid = true) := by
  have hparse : ∀ v m, parseIngestProducerMappings v = Except.ok m →
      (∀ p ∈ m, producerIdPatternOk p.2 = true) ∧ (m.map Prod.fst).Nodup := by
    intro v m hok
    cases v with
    | none =>
        have hok2 : Except.ok ([] : List (String × String)) = Except.ok m := hok
        injection hok2 with hok2
        subst hok2
        exact ⟨by intro p hp; exact absurd hp (List.not_mem_nil p), List.nodup_nil⟩
    | some str =>
        have hok2 : (if strTrim str = "" then
            (Except.ok [] : Except String (List (String × String)))
          else foldProducerMappings
            (((strSplitOn ',' str).map strTrim).filter (fun e => e ≠ "")) []) =
            Except.ok m := hok
        by_cases he : strTrim str = ""
        · rw [if_pos he] at hok2
          injection hok2 with hok2
          subst hok2
          exact ⟨by intro p hp; exact absurd hp (List.not_mem_nil p), List.nodup_nil⟩
        · rw [if_neg he] at hok2
          exact foldProducerMappings_inv _ [] m
            (by intro p hp; exact absurd hp (List.not_mem_nil p)) List.nodup_nil hok2
  refine ⟨hparse, ?_⟩
  intro req basic v mapping pid hok hbasic hres
  unfold resolveIngestProducerId at hres
  rw [hbasic] at hres
  cases htok : req.bearerToken with
  | none => rw [htok] at hres; exact Option.noConfusion hres
  | some tok =>
      rw [htok] at hres
      have hmem := lookupStr_mem mapping tok pid hres
      have hpat := (hparse v mapping hok).1 (tok, pid) hmem
      exact ⟨hpat, patternOk_safe pid hpat⟩

/-- Witness for C10 (amended): the mapping `tokenA=frontend-web` parses,
and a bearer request with `tokenA` resolves to the pattern-valid,
path-safe producer id `frontend-web`. -/
theorem producer_mappings_validated_witness :
    producerIdPatternOk ("frontend-web") = true ∧
      producerSegmentSafe ("frontend-web") = true :=
  producer_mappings_validated.2
    { basicCreds := none, bearerToken := some ("tokenA") }
    { enabled := false, username := none, password := none }
    (some ("tokenA=frontend-web")) [(("tokenA"), ("frontend-web"))] ("frontend-web")
    (by rfl) rfl rfl

/-- A line whose trimmed form is empty (skipped by `processLine`). -/
def isBlankLine (line : String) : Bool := strTrim line == ""

/-- A non-blank line that fails `JSON.parse` (counted in `parseErrors`). -/
def parseFails (line : String) : Bool :=
  !(strTrim line == "") && (parseJson (strTrim line)).isNone

/-- A line parsing to a non-null JSON value (the ones that reach the
upsert). -/
def parsesNonNull (line : String) : Bool :=
  match parseJson (strTrim line) with
  | some Jv.jnull => false
  | some _ => true
  | none => false

/-- Number of lines in a list satisfying a classification. -/
def countLines (p : String → Bool) (lines : List String) : Nat :=
  (lines.filter p).length

theorem countLines_cons (p : String → Bool) (l : String) (lines : List String) :
    countLines p (l :: lines) = (if p l then 1 else 0) + countLines p lines := by
  unfold countLines
  rw [List.filter_cons]
  by_cases h : p l = true
  · simp [h, Nat.add_comm]
  · simp [h]

theorem upsertBranch_existing (db : Db) (report : IndexReport) (input : UpsertEntryInput)
    (fields : List (String × Jv))
    (hfind : (findEntry db input.sourceFile input.lineNumber).isSome = true) :
    (if (upsertEntry db input).2.inserted then
       (Except.ok
         (fields.foldl (fun d kv =>
           if isScalar kv.2 then
             upsertField d (upsertEntry db input).2.entryId kv.1 (jsStringOfScalar kv.2)
           else d) (upsertEntry db input).1,
          { report with recordsInserted := report.recordsInserted + 1 }) :
         Except String (Db × IndexReport))
     else
       Except.ok ((upsertEntry db input).1,
         { report with recordsSkipped := report.recordsSkipped + 1 })) =
      Except.ok (db, { report with recordsSkipped := report.recordsSkipped + 1 }) := by
  have hins : (upsertEntry db input).2.inserted = false := by
    unfold upsertEntry
    cases hf : findEntry db input.sourceFile input.lineNumber with
    | some e => rfl
    | none =>
        unfold findEntry at hfind hf
        rw [hf] at hfind
        exact Bool.noConfusion hfind
  obtain ⟨hdb, _⟩ := upsertEntry_not_inserted_eq db input hins
  rw [hins]
  simp only [Bool.false_eq_true, if_false]
  rw [hdb]

theorem processLine_pass2 (filePath sourceFile line : String) (lineNumber : Nat) (now : String)
    (db : Db) (report : IndexReport)
    (hnn : parseJson (strTrim line) ≠ some Jv.jnull)
    (hkey : parsesNonNull line = true → (findEntry db sourceFile lineNumber).isSome = true) :
    processLine filePath sourceFile line lineNumber now db report =
      Except.ok (db,
        { report with
            parseErrors := report.parseErrors + (if parseFails line then 1 else 0),
            recordsSkipped := report.recordsSkipped + (if parsesNonNull line then 1 else 0) }) := by
  unfold processLine
  by_cases hb : strTrim line = ""
  · rw [if_pos hb]
    have h1 : parseFails line = false := by simp [parseFails, hb]
    have h2 : parsesNonNull line = false := by
      unfold parsesNonNull
      rw [hb]
      rfl
    rw [h1, h2]
    rfl
  · rw [if_neg hb]
    cases hp : parseJson (strTrim line) with
    | none =>
        have h1 : parseFails line = true := by simp [parseFails, hb, hp]
        have h2 : parsesNonNull line = false := by
          unfold parsesNonNull
          rw [hp]
        rw [h1, h2]
        rfl
    | some record =>
        have h1 : parseFails line = false := by simp [parseFails, hb, hp]
        rw [h1]
        cases record with
        | jnull => exact absurd hp hnn
        | jbool b =>
            have h2 : parsesNonNull line = true := by unfold parsesNonNull; rw [hp]
            rw [h2]
            exact upsertBranch_existing db report _ _ (hkey h2)
        | jnum n =>
            have h2 : parsesNonNull line = true := by unfold parsesNonNull; rw [hp]
            rw [h2]
            exact upsertBranch_existing db report _ _ (hkey h2)
        | jstr str =>
            have h2 : parsesNonNull line = true := by unfold parsesNonNull; rw [hp]
            rw [h2]
            exact upsertBranch_existing db report _ _ (hkey h2)
        | jarr xs =>
            have h2 : parsesNonNull line = true := by unfold parsesNonNull; rw [hp]
            rw [h2]
            exact upsertBranch_existing db report _ _ (hkey h2)
        | jobj kvs =>
            have h2 : parsesNonNull line = true := by unfold parsesNonNull; rw [hp]
            rw [h2]
            exact upsertBranch_existing db report _ _ (hkey h2)

theorem find?_append_isSome {α : Type} (l l' : List α) (p : α → Bool)
    (h : (l.find? p).isSome = true) : ((l ++ l').find? p).isSome = true := by
  rw [List.find?_append]
  cases hf : l.find? p with
  | none => rw [hf] at h; exact Bool.noConfusion h
  | some x => simp [hf]

theorem upsertEntry_inserted_eq (db : Db) (input : UpsertEntryInput)
    (h : (upsertEntry db input).2.inserted = true) :
    (upsertEntry db input).1 =
      { db with
          entries := db.entries ++
            [{ id := db.nextId, timestamp := input.timestamp, level := input.level,
               event := input.event, message := input.message, isAudit := input.isAudit,
               dataJson := input.dataJson, sourceFile := input.sourceFile,
               lineNumber := input.lineNumber }],
          nextId := db.nextId + 1 } := by
  unfold upsertEntry at h ⊢
  cases hf : findEntry db input.sourceFile input.lineNumber with
  | some e => rw [hf] at h; exact Bool.noConfusion h
  | none => rfl

theorem upsertBranch_keys (db : Db) (report : IndexReport) (input : UpsertEntryInput)
    (fields : List (String × Jv)) :
    ∀ (db2 : Db) (rep2 : IndexReport),
      (if (upsertEntry db input).2.inserted then
         (Except.ok
           (fields.foldl (fun d kv =>
             if isScalar kv.2 then
               upsertField d (upsertEntry db input).2.entryId kv.1 (jsStringOfScalar kv.2)
             else d) (upsertEntry db input).1,
            { report with recordsInserted := report.recordsInserted + 1 }) :
           Except String (Db × IndexReport))
       else
         Except.ok ((upsertEntry db input).1,
           { report with recordsSkipped := report.recordsSkipped + 1 })) =
        Except.ok (db2, rep2) →
      (∀ sf ln, (findEntry db sf ln).isSome = true → (findEntry db2 sf ln).isSome = true) ∧
      (findEntry db2 input.sourceFile input.lineNumber).isSome = true := by
  intro db2 rep2 h
  cases hins : (upsertEntry db input).2.inserted with
  | true =>
      rw [hins, if_pos rfl] at h
      simp only [Except.ok.injEq, Prod.mk.injEq] at h
      obtain ⟨hdb, _⟩ := h
      subst hdb
      constructor
      · intro sf ln hh
        unfold findEntry at hh ⊢
        rw [foldFields_entries, upsertEntry_inserted_eq db input hins]
        exact find?_append_isSome _ _ _ hh
      · unfold findEntry
        rw [foldFields_entries]
        exact findEntry_isSome_after_insert db input
  | false =>
      rw [hins] at h
      simp only [Bool.false_eq_true, if_false, Except.ok.injEq, Prod.mk.injEq] at h
      obtain ⟨hdb, _⟩ := h
      obtain ⟨hdb2, hfind⟩ := upsertEntry_not_inserted_eq db input hins
      rw [← hdb, hdb2]
      exact ⟨fun sf ln hh => hh, hfind⟩

theorem processLine_null_error (filePath sourceFile line : String) (lineNumber : Nat)
    (now : String) (db : Db) (report : IndexReport)
    (hp : parseJson (strTrim line) = some Jv.jnull) :
    processLine filePath sourceFile line lineNumber now db report =
      Except.error ("TypeError: cannot read properties of null") := by
  have hb : strTrim line ≠ "" := by
    intro he
    rw [he] at hp
    exact Option.noConfusion hp
  unfold processLine
  rw [if_neg hb]
  simp only [hp]

theorem processLine_keys (filePath sourceFile line : String) (lineNumber : Nat) (now : String)
    (db : Db) (report : IndexReport) :
    ∀ (db2 : Db) (rep2 : IndexReport),
      processLine filePath sourceFile line lineNumber now db report = Except.ok (db2, rep2) →
      (∀ sf ln, (findEntry db sf ln).isSome = true → (findEntry db2 sf ln).isSome = true) ∧
      (parsesNonNull line = true → (findEntry db2 sourceFile lineNumber).isSome = true) := by
  intro db2 rep2 h
  unfold processLine at h
  by_cases hb : strTrim line = ""
  · rw [if_pos hb] at h
    simp only [Except.ok.injEq, Prod.mk.injEq] at h
    obtain ⟨hdb, _⟩ := h
    subst hdb
    refine ⟨fun sf ln hh => hh, fun hpn => ?_⟩
    have : parsesNonNull line = false := by
      unfold parsesNonNull
      rw [hb]
      rfl
    rw [this] at hpn
    exact Bool.noConfusion hpn
  · rw [if_neg hb] at h
    cases hp : parseJson (strTrim line) with
    | none =>
        rw [hp] at h
        simp only [Except.ok.injEq, Prod.mk.injEq] at h
        obtain ⟨hdb, _⟩ := h
        subst hdb
        refine ⟨fun sf ln hh => hh, fun hpn => ?_⟩
        have : parsesNonNull line = false := by
          unfold parsesNonNull
          rw [hp]
        rw [this] at hpn
        exact Bool.noConfusion hpn
    | some record =>
        rw [hp] at h
        cases record with
        | jnull => exact Except.noConfusion h
        | jbool b =>
            have hk := upsertBranch_keys db report _ _ db2 rep2 h
            exact ⟨hk.1, fun _ => hk.2⟩
        | jnum n =>
            have hk := upsertBranch_keys db report _ _ db2 rep2 h
            exact ⟨hk.1, fun _ => hk.2⟩
        | jstr str =>
            have hk := upsertBranch_keys db report _ _ db2 rep2 h
            exact ⟨hk.1, fun _ => hk.2⟩
        | jarr xs =>
            have hk := upsertBranch_keys db report _ _ db2 rep2 h
            exact ⟨hk.1, fun _ => hk.2⟩
        | jobj kvs =>
            have hk := upsertBranch_keys db report _ _ db2 rep2 h
            exact ⟨hk.1, fun _ => hk.2⟩

theorem processLines_pass2 (filePath sourceFile now : String) :
    ∀ (lines : List String) (startLine : Nat) (db : Db) (report : IndexReport),
      (∀ i, i < lines.length → parseJson (strTrim (lines.getD i "")) ≠ some Jv.jnull) →
      (∀ i, i < lines.length → parsesNonNull (lines.getD i "") = true →
        (findEntry db sourceFile (startLine + i + 1)).isSome = true) →
      processLines filePath sourceFile now lines startLine db report =
        Except.ok (db,
          { report with
              linesScanned := report.linesScanned + lines.length,
              parseErrors := report.parseErrors + countLines parseFails lines,
              recordsSkipped := report.recordsSkipped + countLines parsesNonNull lines },
          startLine + lines.length) := by
  intro lines
  induction lines with
  | nil =>
      intro startLine db report _ _
      simp [processLines, countLines]
  | cons l rest ih =>
      intro startLine db report hnn hkey
      unfold processLines
      dsimp only
      rw [processLine_pass2 filePath sourceFile l (startLine + 1) now db _
        (hnn 0 (by simp)) (fun h2 => by simpa using hkey 0 (by simp) h2)]
      dsimp only
      rw [ih (startLine + 1) db _
        (fun i hi => by simpa using hnn (i + 1) (by simpa using hi))
        (fun i hi h2 => by
          have := hkey (i + 1) (by simpa using hi) (by simpa using h2)
          have harith : startLine + (i + 1) + 1 = startLine + 1 + i + 1 := by omega
          rw [harith] at this
          exact this)]
      simp only [Except.ok.injEq, Prod.mk.injEq, IndexReport.mk.injEq, countLines_cons,
        List.length_cons, true_and, and_true]
      omega

theorem processLines_keys (filePath sourceFile now : String) :
    ∀ (lines : List String) (startLine : Nat) (db : Db) (report : IndexReport)
      (db1 : Db) (rep1 : IndexReport) (endLine : Nat),
      processLines filePath sourceFile now lines startLine db report =
        Except.ok (db1, rep1, endLine) →
      (∀ sf ln, (findEntry db sf ln).isSome = true → (findEntry db1 sf ln).isSome = true) ∧
      (∀ i, i < lines.length → parsesNonNull (lines.getD i "") = true →
        (findEntry db1 sourceFile (startLine + i + 1)).isSome = true) := by
  intro lines
  induction lines with
  | nil =>
      intro startLine db report db1 rep1 endLine h
      unfold processLines at h
      simp only [Except.ok.injEq, Prod.mk.injEq] at h
      obtain ⟨hdb, _⟩ := h
      subst hdb
      exact ⟨fun sf ln hh => hh, fun i hi => absurd hi (by simp)⟩
  | cons l rest ih =>
      intro startLine db report db1 rep1 endLine h
      unfold processLines at h
      dsimp only at h
      cases hpl : processLine filePath sourceFile l (startLine + 1) now db
          { report with linesScanned := report.linesScanned + 1 } with
      | error e => rw [hpl] at h; exact Except.noConfusion h
      | ok p =>
          obtain ⟨dbm, repm⟩ := p
          rw [hpl] at h
          have hstep := processLine_keys filePath sourceFile l (startLine + 1) now db
            { report with linesScanned := report.linesScanned + 1 } dbm repm hpl
          have hrest := ih (startLine + 1) dbm repm db1 rep1 endLine h
          constructor
          · intro sf ln hh
            exact hrest.1 sf ln (hstep.1 sf ln hh)
          · intro i hi hpn
            cases i with
            | zero =>
                simp only [List.getD] at hpn
                have := hrest.1 sourceFile (startLine + 1) (hstep.2 (by simpa using hpn))
                simpa using this
            | succ j =>
                have := hrest.2 j (by simpa using hi) (by simpa using hpn)
                have harith : startLine + 1 + j + 1 = startLine + (j + 1) + 1 := by omega
                rw [harith] at this
                exact this

theorem processLines_no_null (filePath sourceFile now : String) :
    ∀ (lines : List String) (startLine : Nat) (db : Db) (report : IndexReport)
      (res : Db × IndexReport × Nat),
      processLines filePath sourceFile now lines startLine db report = Except.ok res →
      ∀ i, i < lines.length → parseJson (strTrim (lines.getD i "")) ≠ some Jv.jnull := by
  intro lines
  induction lines with
  | nil =>
      intro startLine db report res _ i hi
      exact absurd hi (by simp)
  | cons l rest ih =>
      intro startLine db report res h i hi
      unfold processLines at h
      dsimp only at h
      cases hpl : processLine filePath sourceFile l (startLine + 1) now db
          { report with linesScanned := report.linesScanned + 1 } with
      | error e => rw [hpl] at h; exact Except.noConfusion h
      | ok p =>
          obtain ⟨dbm, repm⟩ := p
          rw [hpl] at h
          cases i with
          | zero =>
              intro hnull
              rw [processLine_null_error filePath sourceFile l (startLine + 1) now db
                { report with linesScanned := report.linesScanned + 1 }
                (by simpa using hnull)] at hpl
              exact Except.noConfusion hpl
          | succ j =>
              have := ih (startLine + 1) dbm repm res h j (by simpa using hi)
              simpa using this

/-- Total line count of a logs tree. -/
def treeLines (files : List TreeFile) : Nat :=
  (files.map (fun f => (fileLines f.content).length)).sum

/-- Total parse-error line count of a logs tree. -/
def treeParseErrs (files : List TreeFile) : Nat :=
  (files.map (fun f => countLines parseFails (fileLines f.content))).sum

/-- Total count of lines that parse to a non-null JSON value. -/
def treeSkippable (files : List TreeFile) : Nat :=
  (files.map (fun f => countLines parsesNonNull (fileLines f.content))).sum

/-- Total blank-line count of a logs tree. -/
def treeBlanks (files : List TreeFile) : Nat :=
  (files.map (fun f => countLines isBlankLine (fileLines f.content))).sum

/-- Every insertable line of the file has its row present in `db`. -/
def fileKeysIn (db : Db) (f : TreeFile) : Prop :=
  ∀ i, i < (fileLines f.content).length →
    parsesNonNull ((fileLines f.content).getD i "") = true →
    (findEntry db f.sourceFile (i + 1)).isSome = true

/-- No line of the file parses to JSON `null`. -/
def fileNoNull (f : TreeFile) : Prop :=
  ∀ i, i < (fileLines f.content).length →
    parseJson (strTrim ((fileLines f.content).getD i "")) ≠ some Jv.jnull

theorem indexFiles_keys_all (now : String) :
    ∀ (files : List TreeFile) (db : Db) (report : IndexReport) (db1 : Db) (rep1 : IndexReport),
      indexFiles now files db report = Except.ok (db1, rep1) →
      (∀ sf ln, (findEntry db sf ln).isSome = true → (findEntry db1 sf ln).isSome = true) ∧
      (∀ f ∈ files, fileKeysIn db1 f) := by
  intro files
  induction files with
  | nil =>
      intro db report db1 rep1 h
      unfold indexFiles at h
      simp only [Except.ok.injEq, Prod.mk.injEq] at h
      obtain ⟨hdb, _⟩ := h
      subst hdb
      exact ⟨fun sf ln hh => hh, fun f hf => absurd hf (List.not_mem_nil f)⟩
  | cons f rest ih =>
      intro db report db1 rep1 h
      unfold indexFiles at h
      cases hf : indexFileFull now f db report with
      | error e => rw [hf] at h; exact Except.noConfusion h
      | ok p =>
          obtain ⟨dbm, repm⟩ := p
          rw [hf] at h
          unfold indexFileFull at hf
          cases hpl : processLines f.path f.sourceFile now (fileLines f.content) 0 db report with
          | error e => rw [hpl] at hf; exact Except.noConfusion hf
          | ok q =>
              obtain ⟨dbx, repx, endx⟩ := q
              rw [hpl] at hf
              simp only [Except.ok.injEq, Prod.mk.injEq] at hf
              obtain ⟨hdbm, _⟩ := hf
              have hstep := processLines_keys f.path f.sourceFile now (fileLines f.content)
                0 db report dbx repx endx hpl
              rw [hdbm] at hstep
              have hrest := ih dbm repm db1 rep1 h
              refine ⟨fun sf ln hh => hrest.1 sf ln (hstep.1 sf ln hh), ?_⟩
              intro g hg
              rcases List.mem_cons.mp hg with hg | hg
              · subst hg
                intro i hi hpn
                have := hrest.1 g.sourceFile (0 + i + 1) (hstep.2 i hi hpn)
                simpa using this
              · exact hrest.2 g hg

theorem indexFiles_no_null_all (now : String) :
    ∀ (files : List TreeFile) (db : Db) (report : IndexReport) (db1 : Db) (rep1 : IndexReport),
      indexFiles now files db report = Except.ok (db1, rep1) →
      ∀ f ∈ files, fileNoNull f := by
  intro files
  induction files with
  | nil =>
      intro db report db1 rep1 _ f hf
      exact absurd hf (List.not_mem_nil f)
  | cons f rest ih =>
      intro db report db1 rep1 h g hg
      unfold indexFiles at h
      cases hf : indexFileFull now f db report with
      | error e => rw [hf] at h; exact Except.noConfusion h
      | ok p =>
          obtain ⟨dbm, repm⟩ := p
          rw [hf] at h
          rcases List.mem_cons.mp hg with hg | hg
          · subst hg
            unfold indexFileFull at hf
            cases hpl : processLines g.path g.sourceFile now (fileLines g.content) 0 db report with
            | error e => rw [hpl] at hf; exact Except.noConfusion hf
            | ok q =>
                exact processLines_no_null g.path g.sourceFile now (fileLines g.content)
                  0 db report q hpl
          · exact ih dbm repm db1 rep1 h g hg

theorem indexFiles_pass2 (now : String) :
    ∀ (files : List TreeFile) (db : Db) (report : IndexReport),
      (∀ f ∈ files, fileKeysIn db f) →
      (∀ f ∈ files, fileNoNull f) →
      indexFiles now files db report =
        Except.ok (db,
          { report with
              linesScanned := report.linesScanned + treeLines files,
              parseErrors := report.parseErrors + treeParseErrs files,
              recordsSkipped := report.recordsSkipped + treeSkippable files }) := by
  intro files
  induction files with
  | nil =>
      intro db report _ _
      simp [indexFiles, treeLines, treeParseErrs, treeSkippable]
  | cons f rest ih =>
      intro db report hkeys hnn
      unfold indexFiles indexFileFull
      rw [processLines_pass2 f.path f.sourceFile now (fileLines f.content) 0 db report
        (hnn f (List.mem_cons_self f rest))
        (fun i hi hpn => by
          have := hkeys f (List.mem_cons_self f rest) i hi hpn
          simpa using this)]
      dsimp only
      rw [ih db _ (fun g hg => hkeys g (List.mem_cons_of_mem f hg))
        (fun g hg => hnn g (List.mem_cons_of_mem f hg))]
      simp only [Except.ok.injEq, Prod.mk.injEq, IndexReport.mk.injEq, true_and, and_true,
        treeLines, treeParseErrs, treeSkippable, List.map_cons, List.sum_cons]
      omega

/-- Exactly one classification holds for a line that does not parse to
JSON `null`. -/
theorem line_class (line : String) (h : parseJson (strTrim line) ≠ some Jv.jnull) :
    (if isBlankLine line then 1 else 0) + (if parseFails line then 1 else 0) +
      (if parsesNonNull line then 1 else 0) = 1 := by
  by_cases hb : strTrim line = ""
  · have h1 : isBlankLine line = true := by simp [isBlankLine, hb]
    have h2 : parseFails line = false := by simp [parseFails, hb]
    have h3 : parsesNonNull line = false := by
      unfold parsesNonNull
      rw [hb]
      rfl
    rw [h1, h2, h3]
    rfl
  · have h1 : isBlankLine line = false := by simp [isBlankLine, hb]
    cases hp : parseJson (strTrim line) with
    | none =>
        have h2 : parseFails line = true := by simp [parseFails, hb, hp]
        have h3 : parsesNonNull line = false := by unfold parsesNonNull; rw [hp]
        rw [h1, h2, h3]
        rfl
    | some v =>
        have h2 : parseFails line = false := by simp [parseFails, hb, hp]
        have h3 : parsesNonNull line = true := by
          unfold parsesNonNull
          rw [hp]
          cases v with
          | jnull => exact absurd hp h
          | jbool b => rfl
          | jnum n => rfl
          | jstr s => rfl
          | jarr xs => rfl
          | jobj kvs => rfl
        rw [h1, h2, h3]
        rfl

theorem countLines_partition :
    ∀ (lines : List String),
      (∀ i, i < lines.length → parseJson (strTrim (lines.getD i "")) ≠ some Jv.jnull) →
      countLines isBlankLine lines + countLines parseFails lines +
        countLines parsesNonNull lines = lines.length := by
  intro lines
  induction lines with
  | nil => intro _; simp [countLines]
  | cons l rest ih =>
      intro h
      have hl := line_class l (h 0 (by simp))
      have hr := ih (fun i hi => by simpa using h (i + 1) (by simpa using hi))
      simp only [countLines_cons, List.length_cons]
      omega

theorem tree_partition :
    ∀ (files : List TreeFile),
      (∀ f ∈ files, fileNoNull f) →
      treeBlanks files + treeParseErrs files + treeSkippable files = treeLines files := by
  intro files
  induction files with
  | nil => intro _; simp [treeBlanks, treeParseErrs, treeSkippable, treeLines]
  | cons f rest ih =>
      intro h
      have hf := countLines_partition (fileLines f.content) (h f (List.mem_cons_self f rest))
      have hr := ih (fun g hg => h g (List.mem_cons_of_mem f hg))
      simp only [treeBlanks, treeParseErrs, treeSkippable, treeLines, List.map_cons,
        List.sum_cons] at *
      omega

/-- C5 (amended): running a full index pass again over the same tree from
the store the first pass produced leaves the store unchanged — hence
identical query results — and the second pass reports
`recordsInserted = 0`, `parseErrors` equal to the number of malformed
lines, and `recordsSkipped = totalLines − parseErrors − blankLines`
(blank lines are skipped without being counted as skipped records, which
the claim's `totalLines − parseErrors` formula misses). -/
theorem indexDirectory_idempotent (now1 now2 : String) (files : List TreeFile)
    (db1 : Db) (rep1 : IndexReport)
    (h : indexDirectory now1 files emptyDb = Except.ok (db1, rep1)) :
    indexDirectory now2 files db1 =
      Except.ok (db1,
        { filesScanned := files.length,
          linesScanned := treeLines files,
          recordsInserted := 0,
          recordsSkipped := treeSkippable files,
          parseErrors := treeParseErrs files }) ∧
    treeSkippable files = treeLines files - treeParseErrs files - treeBlanks files ∧
    (∀ options cursor, queryPage db1 options cursor = queryPage db1 options cursor) := by
  unfold indexDirectory at h ⊢
  have hnn := indexFiles_no_null_all now1 files emptyDb
    { emptyReport with filesScanned := files.length } db1 rep1 h
  have hkeys := (indexFiles_keys_all now1 files emptyDb
    { emptyReport with filesScanned := files.length } db1 rep1 h).2
  have hpart := tree_partition files hnn
  refine ⟨?_, by omega, fun options cursor => rfl⟩
  rw [indexFiles_pass2 now2 files db1 { emptyReport with filesScanned := files.length }
    hkeys hnn]
  simp only [Except.ok.injEq, Prod.mk.injEq, IndexReport.mk.injEq, true_and, and_true]
  simp [emptyReport]

/-- The tree with one blank line used to refute C5's skip-count formula. -/
def blankTreeC5 : List TreeFile :=
  [{ path := "/logs/a.ndjson", sourceFile := "a.ndjson", content := "\n1\n" }]

/-- The store contents after the first full pass over `blankTreeC5`. -/
def rowC5 : EntryRow :=
  { id := 1, timestamp := "T1", level := "INFO", event := "log.event",
    message := "", isAudit := false, dataJson := "1", sourceFile := "a.ndjson",
    lineNumber := 2 }

def dbAfterC5 : Db :=
  { entries := [rowC5], fields := [], nextId := 2 }

/-- C5 fails on the code: with one blank line and one indexed line, the
second pass scans 2 lines with 0 parse errors but skips only 1 record, so
`recordsSkipped = totalLines − parseErrors` is false. -/
theorem indexing_idempotence_counterexample :
    (indexDirectory ("T1") blankTreeC5 emptyDb).toOption.map Prod.fst = some dbAfterC5 ∧
    (indexDirectory ("T2") blankTreeC5 dbAfterC5).toOption.map
        (fun p => (p.2.recordsSkipped, p.2.linesScanned, p.2.parseErrors)) = some (1, 2, 0) ∧
    (1 : Nat) ≠ 2 - 0 := by
  refine ⟨by rfl, by rfl, by decide⟩

/-- Witness for C5 (amended) at the blank-line tree. -/
theorem indexing_idempotence_witness :
    indexDirectory ("T2") blankTreeC5 dbAfterC5 =
      Except.ok (dbAfterC5,
        { filesScanned := 1,
          linesScanned := treeLines blankTreeC5,
          recordsInserted := 0,
          recordsSkipped := treeSkippable blankTreeC5,
          parseErrors := treeParseErrs blankTreeC5 }) ∧
    treeSkippable blankTreeC5 =
      treeLines blankTreeC5 - treeParseErrs blankTreeC5 - treeBlanks blankTreeC5 ∧
    (∀ options cursor, queryPage dbAfterC5 options cursor = queryPage dbAfterC5 options cursor) :=
  indexDirectory_idempotent ("T1") ("T2") blankTreeC5 dbAfterC5
    { filesScanned := 1, linesScanned := 2, recordsInserted := 1,
      recordsSkipped := 0, parseErrors := 0 } (by rfl)

theorem strMk_toList (s : String) : String.mk s.toList = s := rfl

theorem upsertBranch_provenance (db : Db) (report : IndexReport) (input : UpsertEntryInput)
    (fields : List (String × Jv)) :
    ∀ (db2 : Db) (rep2 : IndexReport),
      (if (upsertEntry db input).2.inserted then
         (Except.ok
           (fields.foldl (fun d kv =>
             if isScalar kv.2 then
               upsertField d (upsertEntry db input).2.entryId kv.1 (jsStringOfScalar kv.2)
             else d) (upsertEntry db input).1,
            { report with recordsInserted := report.recordsInserted + 1 }) :
           Except String (Db × IndexReport))
       else
         Except.ok ((upsertEntry db input).1,
           { report with recordsSkipped := report.recordsSkipped + 1 })) =
        Except.ok (db2, rep2) →
      ∀ e ∈ db2.entries, e ∈ db.entries ∨
        (e.sourceFile = input.sourceFile ∧ e.lineNumber = input.lineNumber ∧
          e.dataJson = input.dataJson) := by
  intro db2 rep2 h e he
  cases hins : (upsertEntry db input).2.inserted with
  | true =>
      rw [hins, if_pos rfl] at h
      simp only [Except.ok.injEq, Prod.mk.injEq] at h
      obtain ⟨hdb, _⟩ := h
      subst hdb
      rw [foldFields_entries] at he
      rw [upsertEntry_inserted_eq db input hins] at he
      dsimp only at he
      rcases List.mem_append.mp he with he | he
      · exact Or.inl he
      · rcases List.mem_singleton.mp he with rfl
        exact Or.inr ⟨rfl, rfl, rfl⟩
  | false =>
      rw [hins] at h
      simp only [Bool.false_eq_true, if_false, Except.ok.injEq, Prod.mk.injEq] at h
      obtain ⟨hdb, _⟩ := h
      obtain ⟨hdb2, _⟩ := upsertEntry_not_inserted_eq db input hins
      rw [← hdb, hdb2] at he
      exact Or.inl he

theorem processLine_provenance (filePath sourceFile line : String) (lineNumber : Nat)
    (now : String) (db : Db) (report : IndexReport) :
    ∀ (db2 : Db) (rep2 : IndexReport),
      processLine filePath sourceFile line lineNumber now db report = Except.ok (db2, rep2) →
      ∀ e ∈ db2.entries, e ∈ db.entries ∨
        (e.sourceFile = sourceFile ∧ e.lineNumber = lineNumber ∧
          ∃ v, parseJson (strTrim line) = some v ∧ e.dataJson = jsonStringify v) := by
  intro db2 rep2 h e he
  unfold processLine at h
  by_cases hb : strTrim line = ""
  · rw [if_pos hb] at h
    simp only [Except.ok.injEq, Prod.mk.injEq] at h
    obtain ⟨hdb, _⟩ := h
    subst hdb
    exact Or.inl he
  · rw [if_neg hb] at h
    cases hp : parseJson (strTrim line) with
    | none =>
        rw [hp] at h
        simp only [Except.ok.injEq, Prod.mk.injEq] at h
        obtain ⟨hdb, _⟩ := h
        subst hdb
        exact Or.inl he
    | some record =>
        rw [hp] at h
        cases record with
        | jnull => exact Except.noConfusion h
        | jbool b =>
            rcases upsertBranch_provenance db report _ _ db2 rep2 h e he with h2 | h2
            · exact Or.inl h2
            · exact Or.inr ⟨h2.1, h2.2.1, _, rfl, h2.2.2⟩
        | jnum n =>
            rcases upsertBranch_provenance db report _ _ db2 rep2 h e he with h2 | h2
            · exact Or.inl h2
            · exact Or.inr ⟨h2.1, h2.2.1, _, rfl, h2.2.2⟩
        | jstr str =>
            rcases upsertBranch_provenance db report _ _ db2 rep2 h e he with h2 | h2
            · exact Or.inl h2
            · exact Or.inr ⟨h2.1, h2.2.1, _, rfl, h2.2.2⟩
        | jarr xs =>
            rcases upsertBranch_provenance db report _ _ db2 rep2 h e he with h2 | h2
            · exact Or.inl h2
            · exact Or.inr ⟨h2.1, h2.2.1, _, rfl, h2.2.2⟩
        | jobj kvs =>
            rcases upsertBranch_provenance db report _ _ db2 rep2 h e he with h2 | h2
            · exact Or.inl h2
            · exact Or.inr ⟨h2.1, h2.2.1, _, rfl, h2.2.2⟩

theorem processLines_provenance (filePath sourceFile now : String) :
    ∀ (lines : List String) (startLine : Nat) (db : Db) (report : IndexReport)
      (db1 : Db) (rep1 : IndexReport) (endLine : Nat),
      processLines filePath sourceFile now lines startLine db report =
        Except.ok (db1, rep1, endLine) →
      ∀ e ∈ db1.entries, e ∈ db.entries ∨
        (e.sourceFile = sourceFile ∧ startLine < e.lineNumber ∧
          e.lineNumber ≤ startLine + lines.length ∧
          ∃ v, parseJson (strTrim (lines.getD (e.lineNumber - startLine - 1) "")) = some v ∧
            e.dataJson = jsonStringify v) := by
  intro lines
  induction lines with
  | nil =>
      intro startLine db report db1 rep1 endLine h e he
      unfold processLines at h
      simp only [Except.ok.injEq, Prod.mk.injEq] at h
      obtain ⟨hdb, _⟩ := h
      subst hdb
      exact Or.inl he
  | cons l rest ih =>
      intro startLine db report db1 rep1 endLine h e he
      unfold processLines at h
      dsimp only at h
      cases hpl : processLine filePath sourceFile l (startLine + 1) now db
          { report with linesScanned := report.linesScanned + 1 } with
      | error er => rw [hpl] at h; exact Except.noConfusion h
      | ok p =>
          obtain ⟨dbm, repm⟩ := p
          rw [hpl] at h
          rcases ih (startLine + 1) dbm repm db1 rep1 endLine h e he with h2 | h2
          · rcases processLine_provenance filePath sourceFile l (startLine + 1) now db
                { report with linesScanned := report.linesScanned + 1 } dbm repm hpl e h2
              with h3 | h3
            · exact Or.inl h3
            · obtain ⟨hsf, hln, v, hv1, hv2⟩ := h3
              refine Or.inr ⟨hsf, by omega, by simp; omega, v, ?_, hv2⟩
              have hidx : e.lineNumber - startLine - 1 = 0 := by omega
              rw [hidx]
              simpa using hv1
          · obtain ⟨hsf, hlow, hhigh, v, hv1, hv2⟩ := h2
            refine Or.inr ⟨hsf, by omega, by simp; omega, v, ?_, hv2⟩
            have hidx : e.lineNumber - startLine - 1 = (e.lineNumber - (startLine + 1) - 1) + 1 := by
              omega
            rw [hidx]
            exact hv1

theorem delete_no_sourceFile (db : Db) (sf : String) :
    ∀ e ∈ (deleteEntriesForSourceFile db sf).1.entries, e.sourceFile ≠ sf := by
  intro e he
  unfold deleteEntriesForSourceFile at he
  dsimp only at he
  have := List.of_mem_filter he
  simpa using this

/-- C2: In an incremental pass over a file with a prior cursor, rewrite-in-place
is detected exactly when the new size is strictly below the checkpointed byte
offset, or the size equals the offset while the mtime differs. In the rewrite
case the pass first purges every row of that `sourceFile` via
`deleteEntriesForSourceFile` (the purged store holds no row of the file), then
rescans the whole content from offset 0 with line numbering restarting at 1, so
every row of that `sourceFile` in the resulting store is derived from the new
content: its line number addresses a line of the new file whose parsed JSON
stringifies to the row's `dataJson`. In the complementary case (which forces
size ≥ offset) scanning resumes at the checkpointed byte offset and line
numbering continues from the checkpointed line number, without any purge. -/
theorem incremental_rewrite_detection (now : String) (file : IncrFile)
    (p : FileCursorState) (db : Db) (report : IndexReport) :
    ((file.content.length < p.byteOffset ∨
        (file.content.length = p.byteOffset ∧ file.mtimeMs ≠ p.mtimeMs)) →
      indexFileIncremental now file (some p) db report =
        (match processLines file.path file.sourceFile now (fileLines file.content) 0
            (deleteEntriesForSourceFile db file.sourceFile).1 report with
         | Except.error e => Except.error e
         | Except.ok (db1, rep1, endLine) =>
             Except.ok (db1, rep1,
               { byteOffset := file.content.length, fileSize := file.content.length,
                 lineNumber := endLine, mtimeMs := file.mtimeMs })) ∧
      (∀ e ∈ (deleteEntriesForSourceFile db file.sourceFile).1.entries,
        e.sourceFile ≠ file.sourceFile) ∧
      (∀ db1 rep1 cur,
        indexFileIncremental now file (some p) db report = Except.ok (db1, rep1, cur) →
        ∀ e ∈ db1.entries, e.sourceFile = file.sourceFile →
          1 ≤ e.lineNumber ∧ e.lineNumber ≤ (fileLines file.content).length ∧
          ∃ v, parseJson (strTrim ((fileLines file.content).getD (e.lineNumber - 1) "")) =
              some v ∧ e.dataJson = jsonStringify v)) ∧
    (¬(file.content.length < p.byteOffset ∨
        (file.content.length = p.byteOffset ∧ file.mtimeMs ≠ p.mtimeMs)) →
      p.byteOffset ≤ file.content.length ∧
      indexFileIncremental now file (some p) db report =
        (match processLines file.path file.sourceFile now
            (fileLines (String.mk (file.content.toList.drop p.byteOffset)))
            p.lineNumber db report with
         | Except.error e => Except.error e
         | Except.ok (db1, rep1, endLine) =>
             Except.ok (db1, rep1,
               { byteOffset := p.byteOffset +
                   (String.mk (file.content.toList.drop p.byteOffset)).length,
                 fileSize := file.content.length,
                 lineNumber := endLine, mtimeMs := file.mtimeMs }))) := by
  constructor
  · intro hrw
    have hb : (decide (file.content.length < p.byteOffset) ||
        (decide (file.mtimeMs ≠ p.mtimeMs) && decide (file.content.length = p.byteOffset)))
        = true := by
      rcases hrw with h | ⟨h1, h2⟩
      · simp [h]
      · simp [h1, h2]
    have heq : indexFileIncremental now file (some p) db report =
        (match processLines file.path file.sourceFile now (fileLines file.content) 0
            (deleteEntriesForSourceFile db file.sourceFile).1 report with
         | Except.error e => Except.error e
         | Except.ok (db1, rep1, endLine) =>
             Except.ok (db1, rep1,
               { byteOffset := file.content.length, fileSize := file.content.length,
                 lineNumber := endLine, mtimeMs := file.mtimeMs })) := by
      unfold indexFileIncremental
      dsimp only
      rw [hb]
      show (match processLines file.path file.sourceFile now
          (fileLines (String.mk (file.content.toList.drop 0))) 0
          (deleteEntriesForSourceFile db file.sourceFile).1 report with
        | Except.error e => Except.error e
        | Except.ok (db1, rep1, endLine) =>
            (Except.ok (db1, rep1,
              ({ byteOffset := 0 + (String.mk (file.content.toList.drop 0)).length,
                 fileSize := file.content.length,
                 lineNumber := endLine, mtimeMs := file.mtimeMs } : FileCursorState)) :
              Except String (Db × IndexReport × FileCursorState))) = _
      simp only [List.drop_zero, strMk_toList, Nat.zero_add]
    refine ⟨heq, delete_no_sourceFile db file.sourceFile, ?_⟩
    intro db1 rep1 cur hok e he hsf
    rw [heq] at hok
    cases hpl : processLines file.path file.sourceFile now (fileLines file.content) 0
        (deleteEntriesForSourceFile db file.sourceFile).1 report with
    | error er => rw [hpl] at hok; exact Except.noConfusion hok
    | ok q =>
        obtain ⟨dbq, repq, endq⟩ := q
        rw [hpl] at hok
        simp only [Except.ok.injEq, Prod.mk.injEq] at hok
        obtain ⟨hdb1, _⟩ := hok
        subst hdb1
        rcases processLines_provenance file.path file.sourceFile now
            (fileLines file.content) 0 (deleteEntriesForSourceFile db file.sourceFile).1
            report dbq repq endq hpl e he with h2 | h2
        · exact absurd hsf (delete_no_sourceFile db file.sourceFile e h2)
        · obtain ⟨_, hlow, hhigh, v, hv1, hv2⟩ := h2
          exact ⟨by omega, by omega, v, by simpa using hv1, hv2⟩
  · intro hn
    push_neg at hn
    obtain ⟨hle, himp⟩ := hn
    have hnlt : ¬ file.content.length < p.byteOffset := Nat.not_lt.mpr hle
    have hb : (decide (file.content.length < p.byteOffset) ||
        (decide (file.mtimeMs ≠ p.mtimeMs) && decide (file.content.length = p.byteOffset)))
        = false := by
      by_cases heq : file.content.length = p.byteOffset
      · have := himp heq
        simp [hnlt, heq, this]
      · simp [hnlt, heq]
    have hres : decide (p.byteOffset ≤ file.content.length) = true := by
      simpa using hle
    refine ⟨hle, ?_⟩
    unfold indexFileIncremental
    dsimp only
    rw [hb, hres]
    rfl

/-- A concrete rewritten file: same byte size as the checkpoint but a newer
mtime, which must trigger the rewrite-in-place path. -/
def incrFileC2 : IncrFile :=
  { path := "/logs/b.ndjson", sourceFile := "b.ndjson", content := "7\n", mtimeMs := 11 }

def cursorC2 : FileCursorState :=
  { byteOffset := 2, fileSize := 2, lineNumber := 1, mtimeMs := 10 }

theorem incremental_rewrite_detection_witness :
    incrFileC2.content.length = cursorC2.byteOffset ∧
    incrFileC2.mtimeMs ≠ cursorC2.mtimeMs ∧
    indexFileIncremental ("T0") incrFileC2 (some cursorC2) emptyDb emptyReport =
      (match processLines incrFileC2.path incrFileC2.sourceFile ("T0")
          (fileLines incrFileC2.content) 0
          (deleteEntriesForSourceFile emptyDb incrFileC2.sourceFile).1 emptyReport with
       | Except.error e => Except.error e
       | Except.ok (db1, rep1, endLine) =>
           Except.ok (db1, rep1,
             { byteOffset := incrFileC2.content.length,
               fileSize := incrFileC2.content.length,
               lineNumber := endLine, mtimeMs := incrFileC2.mtimeMs })) :=
  ⟨by decide, by decide,
    ((incremental_rewrite_detection ("T0") incrFileC2 cursorC2 emptyDb emptyReport).1
      (Or.inr ⟨by decide, by decide⟩)).1⟩

theorem lookupIntMap_set_self (m : List (String × Int)) (k : String) (v : Int) :
    lookupIntMap (setIntMap m k v) k = some v := by
  induction m with
  | nil => simp [setIntMap, lookupIntMap]
  | cons kv rest ih =>
      obtain ⟨k0, v0⟩ := kv
      by_cases h : k0 = k
      · simp [setIntMap, h, lookupIntMap]
      · simp [setIntMap, h, lookupIntMap, ih]

theorem lookupIntMap_set_other (m : List (String × Int)) (k k' : String) (v : Int)
    (h : k' ≠ k) : lookupIntMap (setIntMap m k v) k' = lookupIntMap m k' := by
  induction m with
  | nil => simp [setIntMap, lookupIntMap, Ne.symm h]
  | cons kv rest ih =>
      obtain ⟨k0, v0⟩ := kv
      by_cases h0 : k0 = k
      · subst h0
        simp [setIntMap, lookupIntMap, Ne.symm h]
      · by_cases h1 : k0 = k'
        · simp [setIntMap, h0, lookupIntMap, h1, h]
        · simp [setIntMap, h0, lookupIntMap, h1, ih]

theorem runTriggers_sep (policy : AlertPolicyM) (env : CycleEnv)
    (hcool : 0 ≤ policy.cooldownMs)
    (hsend : ∀ rule t, env.sendAt rule = some t → env.nowMs ≤ t) :
    ∀ (rules : List String) (st : AlertStateM) (es0 : List (String × Int)),
      (∀ pr ∈ es0, ∃ tm, lookupIntMap st.lastTriggerAtByRule pr.1 = some tm ∧ pr.2 ≤ tm) →
      List.Pairwise (fun ev1 ev2 => ev1.1 = ev2.1 → ev1.2 + policy.cooldownMs ≤ ev2.2) es0 →
      List.Pairwise (fun ev1 ev2 => ev1.1 = ev2.1 → ev1.2 + policy.cooldownMs ≤ ev2.2)
        (es0 ++ (runTriggers policy env rules st).2) ∧
      (∀ pr ∈ es0 ++ (runTriggers policy env rules st).2,
        ∃ tm, lookupIntMap (runTriggers policy env rules st).1.lastTriggerAtByRule pr.1 =
          some tm ∧ pr.2 ≤ tm) := by
  intro rules
  induction rules with
  | nil =>
      intro st es0 hdom hsep
      simp only [runTriggers, List.append_nil]
      exact ⟨hsep, hdom⟩
  | cons rule rest ih =>
      intro st es0 hdom hsep
      unfold runTriggers
      dsimp only
      cases hlook : lookupIntMap st.lastTriggerAtByRule rule with
      | some tm =>
          dsimp only
          cases hdec : decide (env.nowMs - tm < policy.cooldownMs) with
          | true =>
              rw [if_pos rfl]
              exact ih { st with suppressed := st.suppressed + 1 } es0 hdom hsep
          | false =>
              rw [if_neg (by simp)]
              have hnot : policy.cooldownMs ≤ env.nowMs - tm := by
                have := of_decide_eq_false hdec
                omega
              cases hsome : env.sendAt rule with
              | none =>
                  simp only [List.append_nil]
                  exact ⟨hsep, hdom⟩
              | some sentAt =>
                  dsimp only
                  have hnow : env.nowMs ≤ sentAt := hsend rule sentAt hsome
                  have hdom1 : ∀ pr ∈ es0 ++ [(rule, sentAt)],
                      ∃ tm2, lookupIntMap
                          (setIntMap st.lastTriggerAtByRule rule sentAt) pr.1 =
                        some tm2 ∧ pr.2 ≤ tm2 := by
                    intro pr hpr
                    rcases List.mem_append.mp hpr with hpr | hpr
                    · by_cases hr : pr.1 = rule
                      · obtain ⟨tm0, hl0, hle0⟩ := hdom pr hpr
                        rw [hr] at hl0
                        rw [hl0] at hlook
                        have htm : tm0 = tm := by
                          simpa using hlook
                        refine ⟨sentAt, ?_, ?_⟩
                        · rw [hr]; exact lookupIntMap_set_self _ _ _
                        · omega
                      · obtain ⟨tm0, hl0, hle0⟩ := hdom pr hpr
                        exact ⟨tm0, by rw [lookupIntMap_set_other _ _ _ _ hr]; exact hl0, hle0⟩
                    · rcases List.mem_singleton.mp hpr with rfl
                      exact ⟨sentAt, lookupIntMap_set_self _ _ _, le_refl _⟩
                  have hsep1 : List.Pairwise
                      (fun ev1 ev2 => ev1.1 = ev2.1 → ev1.2 + policy.cooldownMs ≤ ev2.2)
                      (es0 ++ [(rule, sentAt)]) := by
                    rw [List.pairwise_append]
                    refine ⟨hsep, List.pairwise_singleton _ _, ?_⟩
                    intro p hp q hq heq
                    rcases List.mem_singleton.mp hq with rfl
                    obtain ⟨tm0, hl0, hle0⟩ := hdom p hp
                    rw [heq] at hl0
                    rw [hl0] at hlook
                    have htm : tm0 = tm := by
                      simpa using hlook
                    omega
                  have := ih ({ st with
                      lastTriggerAtByRule := setIntMap st.lastTriggerAtByRule rule sentAt,
                      sent := st.sent + 1 }) (es0 ++ [(rule, sentAt)]) hdom1 hsep1
                  rw [List.append_assoc] at this
                  simpa using this
      | none =>
          dsimp only
          rw [if_neg (by simp)]
          cases hsome : env.sendAt rule with
          | none =>
              simp only [List.append_nil]
              exact ⟨hsep, hdom⟩
          | some sentAt =>
              dsimp only
              have hnow : env.nowMs ≤ sentAt := hsend rule sentAt hsome
              have hdom1 : ∀ pr ∈ es0 ++ [(rule, sentAt)],
                  ∃ tm2, lookupIntMap
                      (setIntMap st.lastTriggerAtByRule rule sentAt) pr.1 =
                    some tm2 ∧ pr.2 ≤ tm2 := by
                intro pr hpr
                rcases List.mem_append.mp hpr with hpr | hpr
                · by_cases hr : pr.1 = rule
                  · obtain ⟨tm0, hl0, hle0⟩ := hdom pr hpr
                    rw [hr] at hl0
                    rw [hl0] at hlook
                    exact Option.noConfusion hlook
                  · obtain ⟨tm0, hl0, hle0⟩ := hdom pr hpr
                    exact ⟨tm0, by rw [lookupIntMap_set_other _ _ _ _ hr]; exact hl0, hle0⟩
                · rcases List.mem_singleton.mp hpr with rfl
                  exact ⟨sentAt, lookupIntMap_set_self _ _ _, le_refl _⟩
              have hsep1 : List.Pairwise
                  (fun ev1 ev2 => ev1.1 = ev2.1 → ev1.2 + policy.cooldownMs ≤ ev2.2)
                  (es0 ++ [(rule, sentAt)]) := by
                rw [List.pairwise_append]
                refine ⟨hsep, List.pairwise_singleton _ _, ?_⟩
                intro p hp q hq heq
                rcases List.mem_singleton.mp hq with rfl
                obtain ⟨tm0, hl0, hle0⟩ := hdom p hp
                rw [heq] at hl0
                rw [hl0] at hlook
                exact Option.noConfusion hlook
              have := ih ({ st with
                  lastTriggerAtByRule := setIntMap st.lastTriggerAtByRule rule sentAt,
                  sent := st.sent + 1 }) (es0 ++ [(rule, sentAt)]) hdom1 hsep1
              rw [List.append_assoc] at this
              simpa using this

theorem runTrace_sep (policy : AlertPolicyM) (hcool : 0 ≤ policy.cooldownMs) :
    ∀ (envs : List CycleEnv) (st : AlertStateM) (es0 : List (String × Int)),
      (∀ env ∈ envs, ∀ rule t, env.sendAt rule = some t → env.nowMs ≤ t) →
      (∀ pr ∈ es0, ∃ tm, lookupIntMap st.lastTriggerAtByRule pr.1 = some tm ∧ pr.2 ≤ tm) →
      List.Pairwise (fun ev1 ev2 => ev1.1 = ev2.1 → ev1.2 + policy.cooldownMs ≤ ev2.2) es0 →
      List.Pairwise (fun ev1 ev2 => ev1.1 = ev2.1 → ev1.2 + policy.cooldownMs ≤ ev2.2)
        (es0 ++ (runTrace policy envs st).2) ∧
      (∀ pr ∈ es0 ++ (runTrace policy envs st).2,
        ∃ tm, lookupIntMap (runTrace policy envs st).1.lastTriggerAtByRule pr.1 =
          some tm ∧ pr.2 ≤ tm) := by
  intro envs
  induction envs with
  | nil =>
      intro st es0 _ hdom hsep
      simp only [runTrace, List.append_nil]
      exact ⟨hsep, hdom⟩
  | cons env rest ih =>
      intro st es0 ha hdom hsep
      unfold runTrace
      dsimp only
      have hstep := runTriggers_sep policy env hcool
        (ha env (List.mem_cons_self _ _)) (cycleTriggers policy env) st es0 hdom hsep
      have htail := ih (runTriggers policy env (cycleTriggers policy env) st).1
        (es0 ++ (runTriggers policy env (cycleTriggers policy env) st).2)
        (fun e he => ha e (List.mem_cons_of_mem _ he)) hstep.2 hstep.1
      rw [List.append_assoc] at htail
      exact ⟨htail.1, htail.2⟩

/-- C9: the cooldown guard of `runCycle`. First conjunct: a trigger whose
previously recorded sent time `t` is within `cooldownMs` of the cycle's
`nowMs` is suppressed — the suppressed counter is incremented and the loop
moves on without consulting the webhook. Second conjunct: over any sequence
of cycles (with a non-negative cooldown and each successful delivery
recorded at a time no earlier than its cycle's start, as `new Date()` after
the send is), the successful send events are pairwise separated: two sends
for the same rule are never less than `cooldownMs` apart. -/
theorem alert_cooldown_separation (policy : AlertPolicyM) (envs : List CycleEnv)
    (hcool : 0 ≤ policy.cooldownMs)
    (ha : ∀ env ∈ envs, ∀ rule t, env.sendAt rule = some t → env.nowMs ≤ t) :
    (∀ (env : CycleEnv) (rule : String) (rest : List String) (st : AlertStateM) (t : Int),
        lookupIntMap st.lastTriggerAtByRule rule = some t →
        env.nowMs - t < policy.cooldownMs →
        runTriggers policy env (rule :: rest) st =
          runTriggers policy env rest { st with suppressed := st.suppressed + 1 }) ∧
    List.Pairwise (fun ev1 ev2 => ev1.1 = ev2.1 → ev1.2 + policy.cooldownMs ≤ ev2.2)
      (runTrace policy envs createAlertState).2 := by
  constructor
  · intro env rule rest st t hlook hlt
    conv_lhs => unfold runTriggers
    dsimp only
    rw [hlook]
    rw [if_pos]
    simpa using hlt
  · have := runTrace_sep policy hcool envs createAlertState [] ha
      (by intro pr hpr; exact absurd hpr (List.not_mem_nil _)) List.Pairwise.nil
    simpa using this.1

/-- A concrete two-cycle trace for the cooldown theorem: the first cycle
sends at time 5; the second at `nowMs = 2000` is past the 1000 ms cooldown
and sends again at 2001. -/
def policyC9 : AlertPolicyM :=
  { errorThreshold := 1, noLogsThresholdMinutes := 0, cooldownMs := 1000 }

def env1C9 : CycleEnv :=
  { nowMs := 0, errorCount := 1, noLogsCount := 1,
    sendAt := fun r => if r = ("error_threshold") then some 5 else none }

def env2C9 : CycleEnv :=
  { nowMs := 2000, errorCount := 1, noLogsCount := 1,
    sendAt := fun r => if r = ("error_threshold") then some 2001 else none }

theorem alert_cooldown_separation_witness :
    (0 : Int) ≤ policyC9.cooldownMs ∧
    List.Pairwise (fun ev1 ev2 => ev1.1 = ev2.1 → ev1.2 + policyC9.cooldownMs ≤ ev2.2)
      (runTrace policyC9 [env1C9, env2C9] createAlertState).2 :=
  ⟨by decide,
    (alert_cooldown_separation policyC9 [env1C9, env2C9] (by decide)
      (by
        intro env henv rule t h
        rcases List.mem_cons.mp henv with rfl | henv2
        · by_cases hr : rule = ("error_threshold")
          · rw [hr] at h
            have h2 : env1C9.sendAt ("error_threshold") = some (5 : Int) := rfl
            rw [h2] at h
            have h3 := Option.some.inj h
            show (0 : Int) ≤ t
            omega
          · simp only [env1C9, if_neg hr] at h
            exact Option.noConfusion h
        · rcases List.mem_cons.mp henv2 with rfl | henv3
          · by_cases hr : rule = ("error_threshold")
            · rw [hr] at h
              have h2 : env2C9.sendAt ("error_threshold") = some (2001 : Int) := rfl
              rw [h2] at h
              have h3 := Option.some.inj h
              show (2000 : Int) ≤ t
              omega
            · simp only [env2C9, if_neg hr] at h
              exact Option.noConfusion h
          · exact absurd henv3 (List.not_mem_nil _))).2⟩

theorem rowAfter_irrefl (a : EntryRow) : ¬ rowAfter a a := by
  unfold rowAfter
  rintro (h | ⟨_, h⟩)
  · rw [strLt_irrefl] at h
    exact Bool.noConfusion h
  · exact lt_irrefl _ h

theorem rowAfter_asymm {a b : EntryRow} (h : rowAfter a b) : ¬ rowAfter b a := by
  unfold rowAfter at *
  rintro (h2 | ⟨he2, hi2⟩)
  · rcases h with h1 | ⟨he1, _⟩
    · rw [strLt_asymm h1] at h2
      exact Bool.noConfusion h2
    · rw [he1, strLt_irrefl] at h2
      exact Bool.noConfusion h2
  · rcases h with h1 | ⟨he1, hi1⟩
    · rw [he2, strLt_irrefl] at h1
      exact Bool.noConfusion h1
    · exact lt_irrefl _ (lt_trans hi1 hi2)

instance : IsAntisymm EntryRow rowAfter where
  antisymm _ _ h1 h2 := absurd h2 (rowAfter_asymm h1)

theorem rowAfter_of_rowLe_ne {a b : EntryRow} (h : rowLe a b) (hne : a.id ≠ b.id) :
    rowAfter a b := by
  unfold rowLe at h
  unfold rowAfter
  rcases h with h | ⟨he, hi⟩
  · exact Or.inl h
  · exact Or.inr ⟨he, lt_of_le_of_ne hi (fun hx => hne hx.symm)⟩

theorem pairwise_rowAfter_of_nodup {l : List EntryRow} (hs : l.Pairwise rowLe)
    (hn : (l.map EntryRow.id).Nodup) : l.Pairwise rowAfter := by
  have hne : l.Pairwise (fun a b => a.id ≠ b.id) := List.pairwise_map.mp hn
  exact (hs.and hne).imp (fun h => rowAfter_of_rowLe_ne h.1 h.2)

theorem sortRows_pairwise (l : List EntryRow) (hn : (l.map EntryRow.id).Nodup) :
    (sortRows l).Pairwise rowAfter := by
  refine pairwise_rowAfter_of_nodup (List.sorted_insertionSort rowLe l) ?_
  exact ((List.perm_insertionSort rowLe l).map EntryRow.id).symm.nodup hn

theorem sortRows_mem {l : List EntryRow} {e : EntryRow} :
    e ∈ sortRows l ↔ e ∈ l := (List.perm_insertionSort rowLe l).mem_iff

theorem cursorPred_iff (a e : EntryRow) :
    cursorPred { id := a.id, timestamp := a.timestamp } e = true ↔ rowAfter a e := by
  unfold cursorPred rowAfter
  simp only [Bool.or_eq_true, Bool.and_eq_true, beq_iff_eq, decide_eq_true_eq]

theorem cursorPred_trans {c : LogCursor} {a e : EntryRow} (h1 : cursorPred c a = true)
    (h2 : rowAfter a e) : cursorPred c e = true := by
  unfold cursorPred at h1 ⊢
  unfold rowAfter at h2
  simp only [Bool.or_eq_true, Bool.and_eq_true, beq_iff_eq, decide_eq_true_eq] at h1 ⊢
  rcases h1 with h1 | ⟨he, hi⟩
  · rcases h2 with h2 | ⟨he2, _⟩
    · exact Or.inl (strLt_trans h2 h1)
    · exact Or.inl (he2 ▸ h1)
  · rcases h2 with h2 | ⟨he2, hi2⟩
    · exact Or.inl (he ▸ h2)
    · exact Or.inr ⟨he2.trans he, lt_trans hi2 hi⟩

theorem filter_cursor_split (A B : List EntryRow) (a : EntryRow)
    (hpair : (A ++ a :: B).Pairwise rowAfter) :
    (A ++ a :: B).filter (cursorPred { id := a.id, timestamp := a.timestamp }) = B := by
  obtain ⟨hA, hcons, hcross⟩ := List.pairwise_append.mp hpair
  rw [List.filter_append]
  have h1 : A.filter (cursorPred { id := a.id, timestamp := a.timestamp }) = [] := by
    rw [List.filter_eq_nil_iff]
    intro x hx hc
    exact rowAfter_asymm (hcross x hx a (List.mem_cons_self _ _)) ((cursorPred_iff a x).mp hc)
  rw [h1, List.filter_cons]
  have ha : cursorPred { id := a.id, timestamp := a.timestamp } a = false := by
    cases hc : cursorPred { id := a.id, timestamp := a.timestamp } a
    · rfl
    · exact absurd ((cursorPred_iff a a).mp hc) (rowAfter_irrefl a)
  rw [ha]
  simp only [Bool.false_eq_true, if_false, List.nil_append]
  rw [List.filter_eq_self]
  intro x hx
  exact (cursorPred_iff a x).mpr (List.rel_of_pairwise_cons hcons hx)

theorem sortRows_filter (p : EntryRow → Bool) (l : List EntryRow)
    (hn : (l.map EntryRow.id).Nodup) :
    sortRows (l.filter p) = (sortRows l).filter p := by
  have hperm : List.Perm (sortRows (l.filter p)) ((sortRows l).filter p) :=
    (List.perm_insertionSort rowLe (l.filter p)).trans
      ((List.perm_insertionSort rowLe l).symm.filter p)
  have hn1 : ((l.filter p).map EntryRow.id).Nodup :=
    hn.sublist ((List.filter_sublist l).map EntryRow.id)
  exact List.eq_of_perm_of_sorted hperm (sortRows_pairwise _ hn1)
    ((sortRows_pairwise l hn).filter p)

theorem queryMatches_sublist (db : Db) (options : LogQueryOptions)
    (cursor : Option LogCursor) : (queryMatches db options cursor).Sublist db.entries := by
  unfold queryMatches
  cases cursor with
  | none => exact List.filter_sublist _
  | some c => exact (List.filter_sublist _).trans (List.filter_sublist _)

theorem queryPage_eq (db : Db) (options : LogQueryOptions) (cursor : Option LogCursor) :
    queryPage db options cursor =
      { entries := (sortRows (queryMatches db options cursor)).take
          (resolveLimit options.limit 1000),
        hasMore := decide (resolveLimit options.limit 1000 <
          (sortRows (queryMatches db options cursor)).length),
        limit := resolveLimit options.limit 1000 } := by
  unfold queryPage
  dsimp only
  by_cases h : resolveLimit options.limit 1000 <
      (sortRows (queryMatches db options cursor)).length
  · have hlen : ((sortRows (queryMatches db options cursor)).take
        (resolveLimit options.limit 1000 + 1)).length = resolveLimit options.limit 1000 + 1 := by
      rw [List.length_take]
      omega
    have hm : decide (resolveLimit options.limit 1000 <
        ((sortRows (queryMatches db options cursor)).take
          (resolveLimit options.limit 1000 + 1)).length) = true := by
      rw [hlen]
      simp
    rw [hm, if_pos rfl, List.take_take]
    have hmin : min (resolveLimit options.limit 1000) (resolveLimit options.limit 1000 + 1) =
        resolveLimit options.limit 1000 := by omega
    rw [hmin]
    have hm2 : decide (resolveLimit options.limit 1000 <
        (sortRows (queryMatches db options cursor)).length) = true := by
      simp [h]
    rw [hm2]
  · have hlen : ((sortRows (queryMatches db options cursor)).take
        (resolveLimit options.limit 1000 + 1)).length =
        (sortRows (queryMatches db options cursor)).length := by
      rw [List.length_take]
      omega
    have hm : decide (resolveLimit options.limit 1000 <
        ((sortRows (queryMatches db options cursor)).take
          (resolveLimit options.limit 1000 + 1)).length) = false := by
      rw [hlen]
      simpa using h
    rw [hm, if_neg (by simp)]
    have hm2 : decide (resolveLimit options.limit 1000 <
        (sortRows (queryMatches db options cursor)).length) = false := by
      simpa using h
    rw [hm2]
    have ht1 : (sortRows (queryMatches db options cursor)).take
        (resolveLimit options.limit 1000 + 1) = sortRows (queryMatches db options cursor) :=
      List.take_of_length_le (by omega)
    have ht2 : (sortRows (queryMatches db options cursor)).take
        (resolveLimit options.limit 1000) = sortRows (queryMatches db options cursor) :=
      List.take_of_length_le (by omega)
    rw [ht1, ht2]

theorem normalizeLimit_pos (i : Option Nat) : 1 ≤ normalizeLimit i 100 1000 := by
  unfold normalizeLimit
  exact le_max_left _ _

theorem normalizeLimit_le (i : Option Nat) : normalizeLimit i 100 1000 ≤ 1000 := by
  unfold normalizeLimit
  cases i with
  | none => dsimp only; omega
  | some n =>
      cases n with
      | zero => dsimp only; omega
      | succ m => dsimp only; omega

theorem resolveLimit_normalize (i : Option Nat) :
    resolveLimit (some (normalizeLimit i 100 1000)) 1000 = normalizeLimit i 100 1000 := by
  obtain ⟨k, hk⟩ : ∃ k, normalizeLimit i 100 1000 = k + 1 :=
    ⟨normalizeLimit i 100 1000 - 1, by have := normalizeLimit_pos i; omega⟩
  rw [hk]
  show max 1 (min 1000 (k + 1)) = k + 1
  have h2 : k + 1 ≤ 1000 := hk ▸ normalizeLimit_le i
  omega

theorem filter_narrow (l : List EntryRow) (q p : EntryRow → Bool)
    (himp : ∀ e ∈ l, p e = true → q e = true) :
    l.filter p = (l.filter q).filter p := by
  rw [List.filter_filter]
  refine List.filter_congr ?_
  intro e he
  cases hce : p e with
  | false => simp
  | true =>
      simp only [Bool.true_and]
      exact (himp e he hce).symm

theorem drop_of_lastCursor (S : List EntryRow) (L : Nat) (a : EntryRow)
    (hpair : S.Pairwise rowAfter) (hlast : (S.take L).getLast? = some a) :
    S.filter (cursorPred { id := a.id, timestamp := a.timestamp }) = S.drop L := by
  have htake_ne : S.take L ≠ [] := by
    intro h
    rw [h] at hlast
    exact Option.noConfusion hlast
  have hgl : (S.take L).getLast htake_ne = a :=
    Option.some.inj ((List.getLast?_eq_getLast _ htake_ne).symm.trans hlast)
  have h1 : S.take L = (S.take L).dropLast ++ [a] := by
    rw [← hgl]
    exact (List.dropLast_append_getLast htake_ne).symm
  have hsplit : S = (S.take L).dropLast ++ a :: S.drop L := by
    calc S = S.take L ++ S.drop L := (List.take_append_drop L S).symm
      _ = ((S.take L).dropLast ++ [a]) ++ S.drop L := by conv_lhs => rw [h1]
      _ = (S.take L).dropLast ++ a :: S.drop L := by
          rw [List.append_assoc, List.singleton_append]
  have hf := filter_cursor_split ((S.take L).dropLast) (S.drop L) a (hsplit ▸ hpair)
  rw [← hsplit] at hf
  exact hf

theorem queryLogsPage_adjacent (db : Db) (options : LogQueryOptions)
    (cursor : Option LogCursor) (hnodup : (db.entries.map EntryRow.id).Nodup) :
    ∀ c2, (queryLogsPage db options cursor).nextCursor = some c2 →
      sortRows (queryMatches db options (some c2)) =
        (sortRows (queryMatches db options cursor)).drop
          (normalizeLimit options.limit 100 1000) := by
  intro c2 hc2
  have hlim : resolveLimit ({ options with
      limit := some (normalizeLimit options.limit 100 1000) } : LogQueryOptions).limit 1000 =
      normalizeLimit options.limit 100 1000 := resolveLimit_normalize options.limit
  have hmatch : queryMatches db ({ options with
      limit := some (normalizeLimit options.limit 100 1000) } : LogQueryOptions) cursor =
      queryMatches db options cursor := rfl
  have hpage := queryPage_eq db ({ options with
      limit := some (normalizeLimit options.limit 100 1000) } : LogQueryOptions) cursor
  rw [hlim, hmatch] at hpage
  have hc2m : (match (queryPage db ({ options with
        limit := some (normalizeLimit options.limit 100 1000) } : LogQueryOptions) cursor).hasMore,
      (queryPage db ({ options with
        limit := some (normalizeLimit options.limit 100 1000) } : LogQueryOptions)
          cursor).entries.getLast? with
      | true, some e => some ({ id := e.id, timestamp := e.timestamp } : LogCursor)
      | _, _ => none) = some c2 := hc2
  rw [hpage] at hc2m
  dsimp only at hc2m
  cases hmore : decide (normalizeLimit options.limit 100 1000 <
      (sortRows (queryMatches db options cursor)).length) with
  | false =>
      rw [hmore] at hc2m
      exact Option.noConfusion hc2m
  | true =>
      rw [hmore] at hc2m
      cases hlast : ((sortRows (queryMatches db options cursor)).take
          (normalizeLimit options.limit 100 1000)).getLast? with
      | none =>
          rw [hlast] at hc2m
          exact Option.noConfusion hc2m
      | some a =>
          rw [hlast] at hc2m
          obtain rfl : c2 = { id := a.id, timestamp := a.timestamp } :=
            (Option.some.inj hc2m).symm
          have hS_pair : (sortRows (queryMatches db options cursor)).Pairwise rowAfter :=
            sortRows_pairwise _
              (hnodup.sublist ((queryMatches_sublist db options cursor).map EntryRow.id))
          have htake_ne : (sortRows (queryMatches db options cursor)).take
              (normalizeLimit options.limit 100 1000) ≠ [] := by
            intro h
            rw [h] at hlast
            exact Option.noConfusion hlast
          have hgl : ((sortRows (queryMatches db options cursor)).take
              (normalizeLimit options.limit 100 1000)).getLast htake_ne = a :=
            Option.some.inj ((List.getLast?_eq_getLast _ htake_ne).symm.trans hlast)
          have ham : a ∈ sortRows (queryMatches db options cursor) :=
            (List.take_sublist _ _).subset (hgl ▸ List.getLast_mem htake_ne)
          have hnbase : ((db.entries.filter (buildFilterPred options db)).map
              EntryRow.id).Nodup :=
            hnodup.sublist ((List.filter_sublist _).map EntryRow.id)
          cases cursor with
          | none =>
              calc sortRows (queryMatches db options
                    (some { id := a.id, timestamp := a.timestamp }))
                  = (sortRows (queryMatches db options none)).filter
                      (cursorPred { id := a.id, timestamp := a.timestamp }) :=
                    sortRows_filter _ _ hnbase
                _ = (sortRows (queryMatches db options none)).drop
                      (normalizeLimit options.limit 100 1000) :=
                    drop_of_lastCursor _ _ _ hS_pair hlast
          | some c =>
              have hac : cursorPred c a = true := by
                have ham2 : a ∈ (db.entries.filter (buildFilterPred options db)).filter
                    (cursorPred c) := sortRows_mem.mp ham
                exact List.of_mem_filter ham2
              have hsub : (db.entries.filter (buildFilterPred options db)).filter
                    (cursorPred { id := a.id, timestamp := a.timestamp }) =
                  ((db.entries.filter (buildFilterPred options db)).filter
                    (cursorPred c)).filter
                      (cursorPred { id := a.id, timestamp := a.timestamp }) :=
                filter_narrow _ _ _
                  (fun e _ hce => cursorPred_trans hac ((cursorPred_iff a e).mp hce))
              show sortRows ((db.entries.filter (buildFilterPred options db)).filter
                  (cursorPred { id := a.id, timestamp := a.timestamp })) =
                (sortRows (queryMatches db options (some c))).drop
                  (normalizeLimit options.limit 100 1000)
              rw [hsub]
              calc sortRows (((db.entries.filter (buildFilterPred options db)).filter
                      (cursorPred c)).filter
                        (cursorPred { id := a.id, timestamp := a.timestamp }))
                  = (sortRows ((db.entries.filter (buildFilterPred options db)).filter
                      (cursorPred c))).filter
                        (cursorPred { id := a.id, timestamp := a.timestamp }) :=
                    sortRows_filter _ _ (hnbase.sublist ((List.filter_sublist _).map EntryRow.id))
                _ = (sortRows (queryMatches db options (some c))).drop
                      (normalizeLimit options.limit 100 1000) :=
                    drop_of_lastCursor _ _ _ hS_pair hlast

/-- C1: for a store whose rows carry unique ids (the AUTOINCREMENT primary
key), `queryPage` returns the first `limit` rows of the filtered match set
ordered by `(timestamp DESC, id DESC)` — it fetches `limit + 1` rows, sets
`hasMore` exactly when more than `limit` rows match, and truncates the page
to `limit` entries; every returned row satisfies the cursor clause
`timestamp < c.timestamp OR (timestamp = c.timestamp AND id < c.id)` when a
cursor is supplied; and following `nextCursor` from `queryLogsPage` yields
the adjacent remainder: the next cursor's match set is exactly the sorted
match list with the current page dropped, so consecutive pages are disjoint
and adjacent. -/
theorem query_pagination_spec (db : Db) (options : LogQueryOptions)
    (cursor : Option LogCursor) (hnodup : (db.entries.map EntryRow.id).Nodup) :
    (queryPage db options cursor).limit = resolveLimit options.limit 1000 ∧
    (queryPage db options cursor).entries =
      (sortRows (queryMatches db options cursor)).take (resolveLimit options.limit 1000) ∧
    (queryPage db options cursor).hasMore =
      decide (resolveLimit options.limit 1000 <
        (sortRows (queryMatches db options cursor)).length) ∧
    ((queryPage db options cursor).hasMore = true →
      (queryPage db options cursor).entries.length = resolveLimit options.limit 1000) ∧
    (queryPage db options cursor).entries.Pairwise rowAfter ∧
    (∀ c, cursor = some c → ∀ e ∈ (queryPage db options cursor).entries,
      cursorPred c e = true) ∧
    (∀ c2, (queryLogsPage db options cursor).nextCursor = some c2 →
      sortRows (queryMatches db options (some c2)) =
        (sortRows (queryMatches db options cursor)).drop
          (normalizeLimit options.limit 100 1000) ∧
      (queryLogsPage db options cursor).entries ++
          sortRows (queryMatches db options (some c2)) =
        sortRows (queryMatches db options cursor) ∧
      (∀ e ∈ (queryLogsPage db options cursor).entries,
        e ∉ sortRows (queryMatches db options (some c2)))) := by
  have hq := queryPage_eq db options cursor
  have hS_pair : (sortRows (queryMatches db options cursor)).Pairwise rowAfter :=
    sortRows_pairwise _
      (hnodup.sublist ((queryMatches_sublist db options cursor).map EntryRow.id))
  refine ⟨by rw [hq], by rw [hq], by rw [hq], ?_, ?_, ?_, ?_⟩
  · intro hm
    rw [hq] at hm ⊢
    dsimp only at hm ⊢
    rw [List.length_take]
    have := of_decide_eq_true hm
    omega
  · rw [hq]
    exact hS_pair.sublist (List.take_sublist _ _)
  · intro c hc e he
    subst hc
    rw [hq] at he
    dsimp only at he
    have he2 : e ∈ sortRows (queryMatches db options (some c)) :=
      (List.take_sublist _ _).subset he
    have he3 : e ∈ queryMatches db options (some c) := sortRows_mem.mp he2
    exact List.of_mem_filter he3
  · intro c2 hc2
    have hdrop := queryLogsPage_adjacent db options cursor hnodup c2 hc2
    have hlim : resolveLimit ({ options with
        limit := some (normalizeLimit options.limit 100 1000) } : LogQueryOptions).limit 1000 =
        normalizeLimit options.limit 100 1000 := resolveLimit_normalize options.limit
    have hmatch : queryMatches db ({ options with
        limit := some (normalizeLimit options.limit 100 1000) } : LogQueryOptions) cursor =
        queryMatches db options cursor := rfl
    have hpage := queryPage_eq db ({ options with
        limit := some (normalizeLimit options.limit 100 1000) } : LogQueryOptions) cursor
    rw [hlim, hmatch] at hpage
    have hent : (queryLogsPage db options cursor).entries =
        (queryPage db ({ options with
          limit := some (normalizeLimit options.limit 100 1000) } : LogQueryOptions)
            cursor).entries := rfl
    rw [hpage] at hent
    dsimp only at hent
    refine ⟨hdrop, ?_, ?_⟩
    · rw [hent, hdrop]
      exact List.take_append_drop _ _
    · intro e he hedrop
      rw [hent] at he
      rw [hdrop] at hedrop
      have hsplit : (sortRows (queryMatches db options cursor)).take
            (normalizeLimit options.limit 100 1000) ++
          (sortRows (queryMatches db options cursor)).drop
            (normalizeLimit options.limit 100 1000) =
          sortRows (queryMatches db options cursor) := List.take_append_drop _ _
    
      have hcross := (List.pairwise_append.mp (hsplit.symm ▸ hS_pair)).2.2
      exact rowAfter_irrefl e (hcross e he e hedrop)

/-- Concrete pagination inputs: three rows with distinct ids and descending
timestamps, queried with limit 2. -/
def rowsC1 : List EntryRow :=
  [{ id := 1, timestamp := "T3", level := "INFO", event := "log.event", message := "",
     isAudit := false, dataJson := "1", sourceFile := "a.ndjson", lineNumber := 1 },
   { id := 2, timestamp := "T2", level := "INFO", event := "log.event", message := "",
     isAudit := false, dataJson := "2", sourceFile := "a.ndjson", lineNumber := 2 },
   { id := 3, timestamp := "T1", level := "INFO", event := "log.event", message := "",
     isAudit := false, dataJson := "3", sourceFile := "a.ndjson", lineNumber := 3 }]

def dbC1 : Db := { entries := rowsC1, fields := [], nextId := 4 }

def optsC1 : LogQueryOptions := { limit := some 2 }

theorem query_pagination_spec_witness :
    (dbC1.entries.map EntryRow.id).Nodup ∧
    (queryPage dbC1 optsC1 none).entries =
      (sortRows (queryMatches dbC1 optsC1 none)).take (resolveLimit optsC1.limit 1000) ∧
    (queryPage dbC1 optsC1 none).hasMore =
      decide (resolveLimit optsC1.limit 1000 <
        (sortRows (queryMatches dbC1 optsC1 none)).length) :=
  ⟨by decide,
    (query_pagination_spec dbC1 optsC1 none (by decide)).2.1,
    (query_pagination_spec dbC1 optsC1 none (by decide)).2.2.1⟩
